import Mathlib

set_option maxRecDepth 8000

/-!
Verification of the shared-memory hash table from `rwlock_optimized_status.cpp`
(`RWLockOptimizedStatusRscManager`).  The table is a fixed array of 2048 slots
in shared memory, using open addressing with double hashing and tombstones
(`RWLOCK_EMPTY` / `RWLOCK_OCCUPIED` / `RWLOCK_DELETED`), lazy deletion, and a
rehash-in-place compaction pass.  We model the table state (`TableState`), the
two hash mixers, the probe loops `findEntry` / `findEmptySlot`, and the public
operations `addRsc`, `updateRsc`, `upsertRsc`, `getRsc`, `removeRsc`,
`isContain`, `batchUpdateRsc`, `clearRsc`, plus `rehashIfNeeded` and the
static `cleanup` entry point.  Machine integers become `Nat` (with explicit
`% 2^32` where 32-bit overflow matters) and `Int` for the signed counters;
values become byte lists, where writing goes through `strncpy` semantics
(truncate at the first NUL, cap at 255 bytes) and reading a `char` array as a
string stops at the first NUL.  The process-shared locks serialize every
public operation, so the sequential model below is the per-operation
semantics.
-/

namespace SharedMem

/-! ## Constants (`shared_constants.h`, `rwlock_optimized_status.h`) -/

def OK : Int := 0
def NOT_FOUND : Int := -1
def NO_SPACE_ERR : Int := -2
def DUPLICATE_KEY : Int := -3

def MAX_VALUE_LEN : Nat := 256

def RWLOCK_HASH_TABLE_SIZE : Nat := 2048

/-- RWLOCK_MAX_ENTRIES is `static_cast<int>(2048 * 0.75) = 1536`. -/
def RWLOCK_MAX_ENTRIES : Int := 1536

/-- U32 is the modulus of 32-bit unsigned arithmetic. -/
def U32 : Nat := 4294967296

/-! ## Hash primitives (`rwlock_optimized_status.h`, inline member functions)

`hash` is the MurmurHash3 finalizer over `key XOR seed`, masked to the table
size; `hash2` uses the golden-ratio offset and different multipliers, masked
and forced odd with `| 1`.  A C `int` key is first cast to `uint32_t`; we model
that cast by reducing the `Nat` key `% 2^32`. -/

def hash (seed key : Nat) : Nat :=
  let k0 := (key % U32) ^^^ (seed % U32)
  let k1 := k0 ^^^ (k0 >>> 16)
  let k2 := (k1 * 0x85ebca6b) % U32
  let k3 := k2 ^^^ (k2 >>> 13)
  let k4 := (k3 * 0xc2b2ae35) % U32
  let k5 := k4 ^^^ (k4 >>> 16)
  k5 &&& (RWLOCK_HASH_TABLE_SIZE - 1)

def hash2 (seed key : Nat) : Nat :=
  let k0 := (key % U32) ^^^ ((seed % U32 + 0x9e3779b9) % U32)
  let k1 := k0 ^^^ (k0 >>> 16)
  let k2 := (k1 * 0x21f0aaad) % U32
  let k3 := k2 ^^^ (k2 >>> 15)
  let k4 := (k3 * 0x735a2d97) % U32
  let k5 := k4 ^^^ (k4 >>> 15)
  (k5 &&& (RWLOCK_HASH_TABLE_SIZE - 1)) ||| 1

def getNextProbe (currentPos step hash2Val : Nat) : Nat :=
  (currentPos + step * hash2Val) &&& (RWLOCK_HASH_TABLE_SIZE - 1)

/-! ## Slots and table state -/

inductive EntryState where
  | empty
  | occupied
  | deleted
deriving DecidableEq

/-- Entry models `RWLockHashEntry`.  The `value` field holds the readable
content of the 256-byte char array: the bytes before its first NUL. -/
structure Entry where
  key : Nat
  value : List Nat
  state : EntryState
  hash_value : Nat
deriving DecidableEq

/-- TableState models the table-relevant part of `RWLockOptimizedSharedData`:
two signed counters, the hash seed, and the slot array (as a function from
slot index to entry; every access in the code is at an index `< 2048`). -/
structure TableState where
  current_count : Int
  deleted_count : Int
  hash_seed : Nat
  table : Nat → Entry

/-- Freshly initialized table, as built by the creator process: all slots
empty with key 0, a single NUL in `value`, `hash_value` 0; both counters 0. -/
def initState (seed : Nat) : TableState :=
  { current_count := 0
    deleted_count := 0
    hash_seed := seed
    table := fun _ => ⟨0, [], EntryState.empty, 0⟩ }

def setSlot (s : TableState) (pos : Nat) (e : Entry) : TableState :=
  { s with table := Function.update s.table pos e }

/-! ## Value read/write semantics

Writing uses `strncpy(dst, src.c_str(), 255)` followed by `dst[255] = 0`:
only the bytes of the source before its first NUL, capped at 255, survive.
Reading a slot's array as `std::string` stops at the first NUL. -/

def storeVal (v : List Nat) : List Nat :=
  (v.takeWhile (fun b => b != 0)).take (MAX_VALUE_LEN - 1)

def readVal (v : List Nat) : List Nat :=
  v.takeWhile (fun b => b != 0)

/-! ## Probe loops

`findEntry` and `findEmptySlot` track `pos` and `step` exactly like the C
loops: `pos` starts from the primary hash and each of the 2048 iterations
advances it with `getNextProbe(pos, step+1, hash2_val)`.  The loops are fuel
recursions, with fuel `2048 - step`.  A C result of `-1` becomes `none`. -/

def findEntryGo (t : Nat → Entry) (key hash2Val : Nat) :
    Nat → Nat → Nat → Option Nat
  | _, _, 0 => none
  | pos, step, fuel + 1 =>
    let e := t pos
    if e.state = EntryState.empty then none
    else if e.state = EntryState.occupied ∧ e.key = key then some pos
    else findEntryGo t key hash2Val (getNextProbe pos (step + 1) hash2Val) (step + 1) fuel

def findEntry (s : TableState) (key hashVal : Nat) : Option Nat :=
  findEntryGo s.table key (hash2 s.hash_seed key) hashVal 0 RWLOCK_HASH_TABLE_SIZE

def findEmptyGo (t : Nat → Entry) (key hash2Val : Nat) :
    Nat → Nat → Nat → Option Nat → Option Nat
  | _, _, 0, firstDeleted => firstDeleted
  | pos, step, fuel + 1, firstDeleted =>
    let e := t pos
    if e.state = EntryState.empty then some (firstDeleted.getD pos)
    else
      let fd := if e.state = EntryState.deleted ∧ firstDeleted = none
                then some pos else firstDeleted
      if e.state = EntryState.occupied ∧ e.key = key then none
      else findEmptyGo t key hash2Val (getNextProbe pos (step + 1) hash2Val) (step + 1) fuel fd

def findEmptySlot (s : TableState) (key hashVal : Nat) : Option Nat :=
  findEmptyGo s.table key (hash2 s.hash_seed key) hashVal 0 RWLOCK_HASH_TABLE_SIZE none

/-- probePos is the slot index examined at loop iteration `s` by both probe
loops: the iterate of `pos := getNextProbe(pos, step+1, hash2)` starting from
the primary hash. -/
def probePos (seed key : Nat) : Nat → Nat
  | 0 => hash seed key
  | s + 1 => getNextProbe (probePos seed key s) (s + 1) (hash2 seed key)

/-! ## Rehash-in-place -/

def needRehash (s : TableState) : Bool :=
  s.current_count + s.deleted_count > RWLOCK_MAX_ENTRIES

/-- mapInsert models assignment `m[k] = v` on a `std::map<int, std::string>`,
represented as a key-sorted association list. -/
def mapInsert (m : List (Nat × List Nat)) (k : Nat) (v : List Nat) :
    List (Nat × List Nat) :=
  match m with
  | [] => [(k, v)]
  | (k', v') :: rest =>
    if k < k' then (k, v) :: (k', v') :: rest
    else if k = k' then (k, v) :: rest
    else (k', v') :: mapInsert rest k v

/-- tempData is the snapshot loop of `rehashIfNeeded`: scan slots `0..2047` in
order and record every occupied slot's key and string value in a `std::map`. -/
def tempData (s : TableState) : List (Nat × List Nat) :=
  (List.range RWLOCK_HASH_TABLE_SIZE).foldl
    (fun m i =>
      if (s.table i).state = EntryState.occupied
      then mapInsert m (s.table i).key (readVal (s.table i).value)
      else m)
    []

/-- reinsertAll is the rebuild loop of `rehashIfNeeded`: re-insert each
snapshotted pair with `findEmptySlot`, returning `NO_SPACE_ERR` as soon as one
insert fails. -/
def reinsertAll : List (Nat × List Nat) → TableState → Int × TableState
  | [], s => (OK, s)
  | (k, v) :: rest, s =>
    let hashVal := hash s.hash_seed k
    match findEmptySlot s k hashVal with
    | none => (NO_SPACE_ERR, s)
    | some pos =>
      let s' := setSlot s pos ⟨k, storeVal v, EntryState.occupied, hashVal⟩
      reinsertAll rest { s' with current_count := s'.current_count + 1 }

/-- clearSlots resets every slot's `state` field to empty (the other fields
are left as they were, exactly like the C loops in `rehashIfNeeded` and
`clearRsc`). -/
def clearSlots (s : TableState) : TableState :=
  { s with table := fun i => { s.table i with state := EntryState.empty } }

def rehashIfNeeded (s : TableState) : Int × TableState :=
  if needRehash s then
    let temp := tempData s
    let s1 := { clearSlots s with current_count := 0, deleted_count := 0 }
    reinsertAll temp s1
  else (OK, s)

/-! ## Public operations -/

/-- insertWrite is the slot-write block duplicated verbatim in `addRsc` and
`upsertRsc` (lines 228-239 and 294-304 of the source): decrement
`deleted_count` when a tombstone is reused, then write key, value, state and
cached hash, and increment `current_count`. -/
def insertWrite (s1 : TableState) (key : Nat) (v : List Nat)
    (hashVal pos : Nat) : TableState :=
  let s2 := if (s1.table pos).state = EntryState.deleted
            then { s1 with deleted_count := s1.deleted_count - 1 } else s1
  let s3 := setSlot s2 pos ⟨key, storeVal v, EntryState.occupied, hashVal⟩
  { s3 with current_count := s3.current_count + 1 }

def addRsc (s : TableState) (key : Nat) (v : List Nat) : Int × TableState :=
  if MAX_VALUE_LEN ≤ v.length then (NO_SPACE_ERR, s)
  else if (rehashIfNeeded s).1 ≠ OK then (NO_SPACE_ERR, (rehashIfNeeded s).2)
  else
    match findEmptySlot (rehashIfNeeded s).2 key
        (hash (rehashIfNeeded s).2.hash_seed key) with
    | none =>
      ((if RWLOCK_MAX_ENTRIES ≤ (rehashIfNeeded s).2.current_count
        then NO_SPACE_ERR else DUPLICATE_KEY), (rehashIfNeeded s).2)
    | some pos =>
      (OK, insertWrite (rehashIfNeeded s).2 key v
        (hash (rehashIfNeeded s).2.hash_seed key) pos)

def updateRsc (s : TableState) (key : Nat) (v : List Nat) : Int × TableState :=
  if MAX_VALUE_LEN ≤ v.length then (NO_SPACE_ERR, s)
  else
    match findEntry s key (hash s.hash_seed key) with
    | none => (NOT_FOUND, s)
    | some pos => (OK, setSlot s pos { s.table pos with value := storeVal v })

def upsertRsc (s : TableState) (key : Nat) (v : List Nat) : Int × TableState :=
  if MAX_VALUE_LEN ≤ v.length then (NO_SPACE_ERR, s)
  else
    match findEntry s key (hash s.hash_seed key) with
    | some pos => (OK, setSlot s pos { s.table pos with value := storeVal v })
    | none =>
      if (rehashIfNeeded s).1 ≠ OK then (NO_SPACE_ERR, (rehashIfNeeded s).2)
      else
        match findEmptySlot (rehashIfNeeded s).2 key (hash s.hash_seed key) with
        | none => (NO_SPACE_ERR, (rehashIfNeeded s).2)
        | some pos =>
          (OK, insertWrite (rehashIfNeeded s).2 key v (hash s.hash_seed key) pos)

def getRsc (s : TableState) (key : Nat) : List Nat :=
  match findEntry s key (hash s.hash_seed key) with
  | none => []
  | some pos => readVal (s.table pos).value

def removeRsc (s : TableState) (key : Nat) : Int × TableState :=
  match findEntry s key (hash s.hash_seed key) with
  | none => (NOT_FOUND, s)
  | some pos =>
    let s1 := setSlot s pos { s.table pos with state := EntryState.deleted }
    (OK, { s1 with current_count := s1.current_count - 1,
                   deleted_count := s1.deleted_count + 1 })

def isContain (s : TableState) (key : Nat) : Bool :=
  (findEntry s key (hash s.hash_seed key)).isSome

def batchUpdateGo : List (Nat × List Nat) → Int → TableState → Int × TableState
  | [], c, s => (c, s)
  | (k, v) :: rest, c, s =>
    if MAX_VALUE_LEN ≤ v.length then batchUpdateGo rest c s
    else
      match findEntry s k (hash s.hash_seed k) with
      | none => batchUpdateGo rest c s
      | some pos =>
        batchUpdateGo rest (c + 1) (setSlot s pos { s.table pos with value := storeVal v })

def batchUpdateRsc (s : TableState) (entries : List (Nat × List Nat)) :
    Int × TableState :=
  batchUpdateGo entries 0 s

def clearRsc (s : TableState) : Int × TableState :=
  (OK, { clearSlots s with current_count := 0, deleted_count := 0 })

/-! ## Operation sequences and reachability -/

inductive Op where
  | add (k : Nat) (v : List Nat)
  | update (k : Nat) (v : List Nat)
  | upsert (k : Nat) (v : List Nat)
  | remove (k : Nat)
  | clear
  | batchUpdate (entries : List (Nat × List Nat))

def applyOp (s : TableState) : Op → TableState
  | Op.add k v => (addRsc s k v).2
  | Op.update k v => (updateRsc s k v).2
  | Op.upsert k v => (upsertRsc s k v).2
  | Op.remove k => (removeRsc s k).2
  | Op.clear => (clearRsc s).2
  | Op.batchUpdate es => (batchUpdateRsc s es).2

def runOps (s : TableState) (ops : List Op) : TableState :=
  ops.foldl applyOp s

/-- Reachable states: produced from a freshly initialized table by a sequence
of public mutating operations. -/
def Reachable (seed : Nat) (s : TableState) : Prop :=
  ∃ ops : List Op, runOps (initState seed) ops = s

/-! ## Cleanup entry point

`cleanup` is static: it calls `shm_unlink` on the segment name and never
touches the mapped table.  The syscall outcome is modelled as an input:
either success, or failure with an `errno` value. -/

inductive UnlinkOutcome where
  | success
  | fail (errno : Nat)
deriving DecidableEq

def ENOENT : Nat := 2

def cleanup (r : UnlinkOutcome) : Int :=
  match r with
  | UnlinkOutcome.success => OK
  | UnlinkOutcome.fail e => if e ≠ ENOENT then -1 else OK

/-- cleanupWithState pairs `cleanup` with the (untouched) table state, to
state that the entry point never modifies table contents. -/
def cleanupWithState (r : UnlinkOutcome) (s : TableState) : Int × TableState :=
  (cleanup r, s)

/-! ## Basic facts about the hash primitives and the probe sequence -/

theorem and_mask_eq_mod (x : Nat) : x &&& 2047 = x % 2048 := by
  have h := Nat.and_pow_two_sub_one_eq_mod x 11
  norm_num at h
  exact h

theorem and_mask_lt (x : Nat) : x &&& 2047 < 2048 := by
  rw [and_mask_eq_mod]
  exact Nat.mod_lt _ (by norm_num)

theorem or_one_mod_two (x : Nat) : (x ||| 1) % 2 = 1 := by
  rw [Nat.mod_two_eq_one_iff_testBit_zero]
  simp

theorem hash_lt (seed key : Nat) : hash seed key < 2048 :=
  and_mask_lt _

theorem hash2_lt (seed key : Nat) : hash2 seed key < 2048 := by
  have h1 : ∀ x : Nat, (x &&& 2047) ||| 1 < 2048 := by
    intro x
    have hx : x &&& 2047 < 2 ^ 11 := by
      have := and_mask_lt x
      norm_num
      exact this
    have h1 : (1 : Nat) < 2 ^ 11 := by norm_num
    have := Nat.or_lt_two_pow hx h1
    norm_num at this
    exact this
  exact h1 _

theorem hash2_odd (seed key : Nat) : hash2 seed key % 2 = 1 :=
  or_one_mod_two _

theorem getNextProbe_lt (p st h2v : Nat) : getNextProbe p st h2v < 2048 :=
  and_mask_lt _

theorem probePos_lt (seed key s : Nat) : probePos seed key s < 2048 := by
  cases s with
  | zero => exact hash_lt seed key
  | succ n => exact getNextProbe_lt _ _ _

/-- Triangular-number helper: `T (n+1) = T n + (n + 1)`. -/
theorem triangle_succ (n : Nat) : (n + 1) * (n + 2) / 2 = n * (n + 1) / 2 + (n + 1) := by
  obtain ⟨c, hc⟩ := Nat.even_mul_succ_self n
  have h2 : (n + 1) * (n + 2) = n * (n + 1) + 2 * (n + 1) := by ring
  omega

/-- The probe position actually generated by the code at iteration `s` is
`(primary + (s (s+1) / 2) · secondary) mod 2048`: the loop advances by
`(step+1) · hash2` each iteration, so the offsets accumulate to the
triangular numbers. -/
theorem probePos_formula (seed key s : Nat) :
    probePos seed key s =
      (hash seed key + (s * (s + 1) / 2) * hash2 seed key) % 2048 := by
  induction s with
  | zero =>
    simp [probePos, Nat.mod_eq_of_lt (hash_lt seed key)]
  | succ n ih =>
    show getNextProbe (probePos seed key n) (n + 1) (hash2 seed key) = _
    rw [ih]
    unfold getNextProbe
    have hm : RWLOCK_HASH_TABLE_SIZE - 1 = 2047 := rfl
    rw [hm, and_mask_eq_mod, Nat.mod_add_mod, triangle_succ]
    congr 1
    ring

theorem coprime_two_pow_of_odd {m : Nat} (h : m % 2 = 1) (k : Nat) :
    Nat.Coprime (2 ^ k) m := by
  apply Nat.Coprime.pow_left
  rw [Nat.coprime_two_left, Nat.odd_iff]
  exact h

/-- Distinctness of triangular numbers modulo `2^11`: the technical core of
full-cycle probing. -/
theorem triangle_inj {s d : Nat} (hs : s < 2048) (hd : s + d < 2048)
    (h : s * (s + 1) / 2 ≡ (s + d) * (s + d + 1) / 2 [MOD 2048]) : d = 0 := by
  by_contra hne
  have h2 : 2 * (s * (s + 1) / 2) ≡ 2 * ((s + d) * (s + d + 1) / 2) [MOD 2 * 2048] :=
    Nat.ModEq.mul_left' 2 h
  obtain ⟨c1, hc1⟩ := Nat.even_mul_succ_self s
  obtain ⟨c2, hc2⟩ := Nat.even_mul_succ_self (s + d)
  have e1 : 2 * (s * (s + 1) / 2) = s * (s + 1) := by omega
  have e2 : 2 * ((s + d) * (s + d + 1) / 2) = (s + d) * (s + d + 1) := by omega
  rw [e1, e2] at h2
  have hle : s * (s + 1) ≤ (s + d) * (s + d + 1) := by nlinarith
  have hdvd : (2 * 2048) ∣ (s + d) * (s + d + 1) - s * (s + 1) :=
    (Nat.modEq_iff_dvd' hle).mp h2
  have hsub : (s + d) * (s + d + 1) - s * (s + 1) = d * (2 * s + d + 1) := by
    have hx : (s + d) * (s + d + 1) = s * (s + 1) + d * (2 * s + d + 1) := by ring
    omega
  rw [hsub] at hdvd
  have h4096 : (2 * 2048 : Nat) = 2 ^ 12 := by norm_num
  rw [h4096] at hdvd
  rcases Nat.even_or_odd d with hev | hod
  · -- d even, so 2s + d + 1 is odd and 2^12 must divide d
    have hodd : (2 * s + d + 1) % 2 = 1 := by
      rw [Nat.even_iff] at hev
      omega
    have hcop : Nat.Coprime (2 ^ 12) (2 * s + d + 1) := coprime_two_pow_of_odd hodd 12
    have : (2 ^ 12 : Nat) ∣ d := hcop.dvd_of_dvd_mul_right hdvd
    have := Nat.le_of_dvd (Nat.pos_of_ne_zero hne) this
    norm_num at this
    omega
  · -- d odd, so 2^12 must divide 2s + d + 1
    have hodd : d % 2 = 1 := Nat.odd_iff.mp hod
    have hcop : Nat.Coprime (2 ^ 12) d := coprime_two_pow_of_odd hodd 12
    have hdvd2 : (2 ^ 12 : Nat) ∣ 2 * s + d + 1 := by
      have hmul : d * (2 * s + d + 1) = (2 * s + d + 1) * d := by ring
      rw [hmul] at hdvd
      exact hcop.dvd_of_dvd_mul_right hdvd
    have hpos : 0 < 2 * s + d + 1 := by omega
    have := Nat.le_of_dvd hpos hdvd2
    norm_num at this
    omega

/-- The first 2048 probe positions of any key are pairwise distinct: the
step `hash2` is odd hence invertible modulo the power-of-two capacity, and the
triangular offsets are distinct modulo 2048. -/
theorem probePos_injective (seed key : Nat) {s t : Nat} (hs : s < 2048)
    (ht : t < 2048) (h : probePos seed key s = probePos seed key t) : s = t := by
  -- reduce to a statement about triangular numbers times the odd step
  rw [probePos_formula, probePos_formula] at h
  have hmod : (hash seed key + s * (s + 1) / 2 * hash2 seed key) ≡
      (hash seed key + t * (t + 1) / 2 * hash2 seed key) [MOD 2048] := h
  have hmod2 := hmod.add_left_cancel' (hash seed key)
  have hgcd : Nat.gcd 2048 (hash2 seed key) = 1 := by
    have := coprime_two_pow_of_odd (hash2_odd seed key) 11
    norm_num at this
    exact this
  have htri : s * (s + 1) / 2 ≡ t * (t + 1) / 2 [MOD 2048] :=
    Nat.ModEq.cancel_right_of_coprime hgcd hmod2
  rcases Nat.le_total s t with hle | hle
  · obtain ⟨d, rfl⟩ : ∃ d, t = s + d := ⟨t - s, by omega⟩
    have := triangle_inj hs ht htri
    omega
  · obtain ⟨d, rfl⟩ : ∃ d, s = t + d := ⟨s - t, by omega⟩
    have := triangle_inj ht hs htri.symm
    omega

/-- The probe sequence also hits every slot: injectivity on a finite domain of
the same size gives surjectivity. -/
theorem probePos_surjective (seed key : Nat) {p : Nat} (hp : p < 2048) :
    ∃ n < 2048, probePos seed key n = p := by
  classical
  let F : Fin 2048 → Fin 2048 := fun s => ⟨probePos seed key s, probePos_lt seed key s⟩
  have hinj : Function.Injective F := by
    intro a b hab
    have : probePos seed key a = probePos seed key b := congrArg Fin.val hab
    exact Fin.ext (probePos_injective seed key a.isLt b.isLt this)
  have hsurj : Function.Surjective F := Finite.surjective_of_injective hinj
  obtain ⟨n, hn⟩ := hsurj ⟨p, hp⟩
  exact ⟨n, n.isLt, congrArg Fin.val hn⟩

/-! ## Counting occupied and tombstoned slots -/

def countP (t : Nat → Entry) (P : Entry → Prop) [DecidablePred P] : Nat :=
  ((Finset.range RWLOCK_HASH_TABLE_SIZE).filter (fun i => P (t i))).card

def countOcc (s : TableState) : Nat :=
  countP s.table (fun e => e.state = EntryState.occupied)

def countDel (s : TableState) : Nat :=
  countP s.table (fun e => e.state = EntryState.deleted)

theorem countP_update (t : Nat → Entry) (p : Nat) (e : Entry)
    (P : Entry → Prop) [DecidablePred P] (hp : p < 2048) :
    countP (Function.update t p e) P + (if P (t p) then 1 else 0) =
      countP t P + (if P e then 1 else 0) := by
  classical
  unfold countP
  have hp' : p ∈ Finset.range RWLOCK_HASH_TABLE_SIZE := Finset.mem_range.mpr hp
  have hrange : Finset.range RWLOCK_HASH_TABLE_SIZE =
      insert p ((Finset.range RWLOCK_HASH_TABLE_SIZE).erase p) :=
    (Finset.insert_erase hp').symm
  have hpe : p ∉ (Finset.range RWLOCK_HASH_TABLE_SIZE).erase p := Finset.not_mem_erase p _
  have herase :
      ((Finset.range RWLOCK_HASH_TABLE_SIZE).erase p).filter
          (fun i => P (Function.update t p e i)) =
        ((Finset.range RWLOCK_HASH_TABLE_SIZE).erase p).filter (fun i => P (t i)) := by
    apply Finset.filter_congr
    intro i hi
    have hne : i ≠ p := Finset.ne_of_mem_erase hi
    simp [Function.update_noteq hne]
  have hpA : p ∉ ((Finset.range RWLOCK_HASH_TABLE_SIZE).erase p).filter
      (fun i => P (t i)) := fun h => hpe (Finset.mem_of_mem_filter _ h)
  rw [hrange, Finset.filter_insert, Finset.filter_insert, herase, Function.update_same]
  by_cases h1 : P e <;> by_cases h2 : P (t p) <;>
    simp [h1, h2, Finset.card_insert_of_not_mem hpA]

theorem countP_le (t : Nat → Entry) (P : Entry → Prop) [DecidablePred P] :
    countP t P ≤ 2048 := by
  have h1 := Finset.card_filter_le (Finset.range RWLOCK_HASH_TABLE_SIZE) (fun i => P (t i))
  rw [Finset.card_range] at h1
  exact h1

theorem countP_eq_of_forall (t : Nat → Entry) (P : Entry → Prop) [DecidablePred P]
    (h : ∀ i < 2048, P (t i)) : countP t P = 2048 := by
  classical
  unfold countP
  have : (Finset.range RWLOCK_HASH_TABLE_SIZE).filter (fun i => P (t i)) =
      Finset.range RWLOCK_HASH_TABLE_SIZE := by
    apply Finset.filter_true_of_mem
    intro i hi
    exact h i (Finset.mem_range.mp hi)
  rw [this, Finset.card_range]
  rfl

theorem exists_not_of_countP_lt (t : Nat → Entry) (P : Entry → Prop)
    [DecidablePred P] (h : countP t P < 2048) : ∃ i < 2048, ¬ P (t i) := by
  by_contra hcon
  push_neg at hcon
  have := countP_eq_of_forall t P hcon
  omega

theorem countP_congr (t t' : Nat → Entry) (P : Entry → Prop) [DecidablePred P]
    (h : ∀ i < 2048, P (t i) ↔ P (t' i)) : countP t P = countP t' P := by
  classical
  unfold countP
  have heq : (Finset.range RWLOCK_HASH_TABLE_SIZE).filter (fun i => P (t i)) =
      (Finset.range RWLOCK_HASH_TABLE_SIZE).filter (fun i => P (t' i)) := by
    apply Finset.filter_congr
    intro i hi
    have := h i (Finset.mem_range.mp hi)
    simp [this]
  rw [heq]

theorem card_filter_range_eq (p : Nat → Prop) [DecidablePred p] :
    ∀ n, ((Finset.range n).filter p).card =
      (List.range n).countP (fun i => decide (p i)) := by
  intro n
  induction n with
  | zero => simp
  | succ n ih =>
    rw [Finset.range_succ, Finset.filter_insert, List.range_succ, List.countP_append]
    by_cases hp : p n
    · rw [if_pos hp, Finset.card_insert_of_not_mem (by simp), ih]
      simp [hp]
    · rw [if_neg hp, ih]
      simp [hp]

theorem countOcc_eq_listCount (s : TableState) :
    countOcc s = (List.range RWLOCK_HASH_TABLE_SIZE).countP
      (fun i => decide ((s.table i).state = EntryState.occupied)) := by
  exact card_filter_range_eq (fun i => (s.table i).state = EntryState.occupied) _

/-! ## Logical contents and the table invariant -/

/-- occPairs lists the logical key/value contents: the `(key, readable value)`
pair of every occupied slot, in slot order. -/
def occPairs (s : TableState) : List (Nat × List Nat) :=
  (List.range RWLOCK_HASH_TABLE_SIZE).filterMap
    (fun i => if (s.table i).state = EntryState.occupied
              then some ((s.table i).key, readVal (s.table i).value) else none)

/-- ValOk singles out byte lists that a slot's char array can represent
verbatim: NUL-free and at most 255 bytes. -/
def ValOk (v : List Nat) : Prop := (∀ b ∈ v, b ≠ 0) ∧ v.length ≤ 255

/-- Inv is the well-formedness invariant of a table state: the counters count
the occupied and tombstoned slots, occupied keys are unique, every occupied
slot is reachable along its key's probe sequence without crossing an empty
slot, and stored values are representable. -/
structure Inv (s : TableState) : Prop where
  occ_count : s.current_count = (countOcc s : Int)
  del_count : s.deleted_count = (countDel s : Int)
  key_uniq : ∀ i < 2048, ∀ j < 2048,
    (s.table i).state = EntryState.occupied →
    (s.table j).state = EntryState.occupied →
    (s.table i).key = (s.table j).key → i = j
  probe_reach : ∀ i < 2048, (s.table i).state = EntryState.occupied →
    ∃ n < 2048, probePos s.hash_seed (s.table i).key n = i ∧
      ∀ t < n, (s.table (probePos s.hash_seed (s.table i).key t)).state ≠ EntryState.empty
  val_ok : ∀ i < 2048, (s.table i).state = EntryState.occupied →
    ValOk (s.table i).value

theorem mem_occPairs {s : TableState} {k : Nat} {w : List Nat} :
    (k, w) ∈ occPairs s ↔
      ∃ i < 2048, (s.table i).state = EntryState.occupied ∧
        (s.table i).key = k ∧ readVal (s.table i).value = w := by
  unfold occPairs
  rw [List.mem_filterMap]
  constructor
  · rintro ⟨i, hi, hsome⟩
    rw [List.mem_range] at hi
    by_cases hocc : (s.table i).state = EntryState.occupied
    · rw [if_pos hocc] at hsome
      injection hsome with h
      exact ⟨i, hi, hocc, congrArg Prod.fst h, congrArg Prod.snd h⟩
    · rw [if_neg hocc] at hsome
      exact absurd hsome (by simp)
  · rintro ⟨i, hi, hocc, hk, hw⟩
    exact ⟨i, List.mem_range.mpr hi, by rw [if_pos hocc, hk, hw]⟩

theorem Inv_initState (seed : Nat) : Inv (initState seed) := by
  constructor
  · show (0 : Int) = (countP _ _ : Int)
    have : countP (initState seed).table (fun e => e.state = EntryState.occupied) = 0 := by
      unfold countP
      rw [Finset.filter_false_of_mem, Finset.card_empty]
      intro i _
      simp [initState]
    rw [this]
    rfl
  · show (0 : Int) = (countP _ _ : Int)
    have : countP (initState seed).table (fun e => e.state = EntryState.deleted) = 0 := by
      unfold countP
      rw [Finset.filter_false_of_mem, Finset.card_empty]
      intro i _
      simp [initState]
    rw [this]
    rfl
  · intro i _ j _ hi
    simp [initState] at hi
  · intro i _ hi
    simp [initState] at hi
  · intro i _ hi
    simp [initState] at hi

/-! ## Probe-loop lemmas -/

theorem findEntryGo_some_sound {t : Nat → Entry} {k h2v : Nat} :
    ∀ fuel pos step p, pos < 2048 →
      findEntryGo t k h2v pos step fuel = some p →
      p < 2048 ∧ (t p).state = EntryState.occupied ∧ (t p).key = k := by
  intro fuel
  induction fuel with
  | zero => intro pos step p _ h; exact absurd h (by simp [findEntryGo])
  | succ n ih =>
    intro pos step p hpos h
    rw [findEntryGo] at h
    by_cases hemp : (t pos).state = EntryState.empty
    · rw [if_pos hemp] at h
      exact absurd h (by simp)
    · rw [if_neg hemp] at h
      by_cases hmatch : (t pos).state = EntryState.occupied ∧ (t pos).key = k
      · rw [if_pos hmatch] at h
        injection h with h
        subst h
        exact ⟨hpos, hmatch.1, hmatch.2⟩
      · rw [if_neg hmatch] at h
        exact ih _ _ p (getNextProbe_lt _ _ _) h

/-- Completeness of `findEntry`: an occupied slot whose probe path crosses no
empty slot, with its key unique in the table, is found. -/
theorem findEntryGo_finds (s : TableState) (k j n : Nat)
    (huniq : ∀ i < 2048, ∀ j' < 2048,
      (s.table i).state = EntryState.occupied →
      (s.table j').state = EntryState.occupied →
      (s.table i).key = (s.table j').key → i = j')
    (hj : j < 2048)
    (hocc : (s.table j).state = EntryState.occupied)
    (hkey : (s.table j).key = k)
    (hn : n < 2048) (hpj : probePos s.hash_seed k n = j)
    (hne : ∀ u < n, (s.table (probePos s.hash_seed k u)).state ≠ EntryState.empty) :
    ∀ fuel step, step + fuel = 2048 → step ≤ n →
      findEntryGo s.table k (hash2 s.hash_seed k)
        (probePos s.hash_seed k step) step fuel = some j := by
  intro fuel
  induction fuel with
  | zero => intro step hstep hle; omega
  | succ f ih =>
    intro step hstep hle
    rw [findEntryGo]
    rcases Nat.lt_or_ge step n with hlt | hge
    · -- strictly before the target step
      have hnemp := hne step hlt
      rw [if_neg hnemp]
      by_cases hmatch : (s.table (probePos s.hash_seed k step)).state = EntryState.occupied ∧
          (s.table (probePos s.hash_seed k step)).key = k
      · rw [if_pos hmatch]
        have := huniq (probePos s.hash_seed k step) (probePos_lt _ _ _) j hj
          hmatch.1 hocc (by rw [hmatch.2, hkey])
        rw [this]
      · rw [if_neg hmatch]
        have hrec := ih (step + 1) (by omega) (by omega)
        exact hrec
    · -- step = n: we are at the target slot
      have hsn : step = n := by omega
      subst hsn
      rw [hpj]
      rw [if_neg (by rw [hocc]; intro hcon; cases hcon)]
      rw [if_pos ⟨hocc, hkey⟩]

theorem findEntry_finds {s : TableState} {k j : Nat} (hInv : Inv s)
    (hj : j < 2048) (hocc : (s.table j).state = EntryState.occupied)
    (hkey : (s.table j).key = k) :
    findEntry s k (hash s.hash_seed k) = some j := by
  obtain ⟨n, hn, hpj, hne⟩ := hInv.probe_reach j hj hocc
  rw [hkey] at hpj hne
  exact findEntryGo_finds s k j n hInv.key_uniq hj hocc hkey hn hpj hne 2048 0 rfl
    (Nat.zero_le n)

theorem findEntry_eq_none {s : TableState} {k : Nat}
    (h : ∀ i < 2048, ¬((s.table i).state = EntryState.occupied ∧ (s.table i).key = k)) :
    findEntry s k (hash s.hash_seed k) = none := by
  cases heq : findEntry s k (hash s.hash_seed k) with
  | none => rfl
  | some p =>
    have := findEntryGo_some_sound 2048 (hash s.hash_seed k) 0 p (hash_lt _ _) heq
    exact absurd ⟨this.2.1, this.2.2⟩ (h p this.1)

/-- Soundness of `findEmptySlot`: a returned slot is in range, is empty or a
tombstone, and lies on the key's probe path with no empty slot strictly
before it. -/
theorem findEmptyGo_some_sound (s : TableState) (k : Nat) :
    ∀ fuel step fd p,
      step + fuel = 2048 →
      (∀ q, fd = some q → (s.table q).state = EntryState.deleted ∧
        ∃ m < step, probePos s.hash_seed k m = q) →
      (∀ u < step, (s.table (probePos s.hash_seed k u)).state ≠ EntryState.empty) →
      findEmptyGo s.table k (hash2 s.hash_seed k)
        (probePos s.hash_seed k step) step fuel fd = some p →
      p < 2048 ∧
        ((s.table p).state = EntryState.empty ∨ (s.table p).state = EntryState.deleted) ∧
        ∃ m < 2048, probePos s.hash_seed k m = p ∧
          ∀ u < m, (s.table (probePos s.hash_seed k u)).state ≠ EntryState.empty := by
  intro fuel
  induction fuel with
  | zero =>
    intro step fd p hstep hfd hpath h
    rw [findEmptyGo] at h
    obtain ⟨hdel, m, hm, hpm⟩ := hfd p h
    exact ⟨hpm ▸ probePos_lt _ _ _, Or.inr hdel,
      m, by omega, hpm, fun u hu => hpath u (by omega)⟩
  | succ f ih =>
    intro step fd p hstep hfd hpath h
    rw [findEmptyGo] at h
    by_cases hemp : (s.table (probePos s.hash_seed k step)).state = EntryState.empty
    · rw [if_pos hemp] at h
      injection h with h
      cases fd with
      | none =>
        simp only [Option.getD] at h
        subst h
        exact ⟨probePos_lt _ _ _, Or.inl hemp, step, by omega, rfl, hpath⟩
      | some q =>
        simp only [Option.getD] at h
        obtain ⟨hdel, m, hm, hpm⟩ := hfd q rfl
        subst h
        exact ⟨hpm ▸ probePos_lt _ _ _, Or.inr hdel,
          m, by omega, hpm, fun u hu => hpath u (by omega)⟩
    · rw [if_neg hemp] at h
      by_cases hmatch : (s.table (probePos s.hash_seed k step)).state = EntryState.occupied ∧
          (s.table (probePos s.hash_seed k step)).key = k
      · rw [if_pos hmatch] at h
        exact absurd h (by simp)
      · rw [if_neg hmatch] at h
        refine ih (step + 1) _ p (by omega) ?_ ?_ h
        · intro q hq
          by_cases hdel : (s.table (probePos s.hash_seed k step)).state = EntryState.deleted ∧
              fd = none
          · rw [if_pos hdel] at hq
            injection hq with hq
            subst hq
            exact ⟨hdel.1, step, by omega, rfl⟩
          · rw [if_neg hdel] at hq
            obtain ⟨h1, m, hm, hpm⟩ := hfd q hq
            exact ⟨h1, m, by omega, hpm⟩
        · intro u hu
          rcases Nat.lt_or_ge u step with h1 | h1
          · exact hpath u h1
          · have : u = step := by omega
            subst this
            exact hemp

/-- Duplicate detection in `findEmptySlot`: if the key is already occupied at
a probe-reachable slot, the loop returns `none` (`-1` in the C code). -/
theorem findEmptyGo_dup (s : TableState) (k j n : Nat)
    (hocc : (s.table j).state = EntryState.occupied)
    (hkey : (s.table j).key = k)
    (hn : n < 2048) (hpj : probePos s.hash_seed k n = j)
    (hne : ∀ u < n, (s.table (probePos s.hash_seed k u)).state ≠ EntryState.empty) :
    ∀ fuel step fd, step + fuel = 2048 → step ≤ n →
      findEmptyGo s.table k (hash2 s.hash_seed k)
        (probePos s.hash_seed k step) step fuel fd = none := by
  intro fuel
  induction fuel with
  | zero => intro step fd hstep hle; omega
  | succ f ih =>
    intro step fd hstep hle
    rw [findEmptyGo]
    rcases Nat.lt_or_ge step n with hlt | hge
    · have hnemp := hne step hlt
      rw [if_neg hnemp]
      by_cases hmatch : (s.table (probePos s.hash_seed k step)).state = EntryState.occupied ∧
          (s.table (probePos s.hash_seed k step)).key = k
      · rw [if_pos hmatch]
      · rw [if_neg hmatch]
        exact ih (step + 1) _ (by omega) (by omega)
    · have hsn : step = n := by omega
      subst hsn
      rw [hpj]
      rw [if_neg (by rw [hocc]; intro hcon; cases hcon)]
      rw [if_pos ⟨hocc, hkey⟩]

theorem findEmptySlot_dup {s : TableState} {k j : Nat} (hInv : Inv s)
    (hj : j < 2048) (hocc : (s.table j).state = EntryState.occupied)
    (hkey : (s.table j).key = k) :
    findEmptySlot s k (hash s.hash_seed k) = none := by
  obtain ⟨n, hn, hpj, hne⟩ := hInv.probe_reach j hj hocc
  rw [hkey] at hpj hne
  exact findEmptyGo_dup s k j n hocc hkey hn hpj hne 2048 0 none rfl (Nat.zero_le n)

/-- When `findEmptySlot` returns `none`, either the key is already occupied
somewhere, or no tombstone was tracked and the whole remaining probe path is
occupied slots. -/
theorem findEmptyGo_none_char (s : TableState) (k : Nat) :
    ∀ fuel step fd,
      step + fuel = 2048 →
      findEmptyGo s.table k (hash2 s.hash_seed k)
        (probePos s.hash_seed k step) step fuel fd = none →
      (∃ i < 2048, (s.table i).state = EntryState.occupied ∧ (s.table i).key = k) ∨
        (fd = none ∧ ∀ u, step ≤ u → u < 2048 →
          (s.table (probePos s.hash_seed k u)).state = EntryState.occupied) := by
  intro fuel
  induction fuel with
  | zero =>
    intro step fd hstep h
    rw [findEmptyGo] at h
    exact Or.inr ⟨h, fun u h1 h2 => by omega⟩
  | succ f ih =>
    intro step fd hstep h
    rw [findEmptyGo] at h
    by_cases hemp : (s.table (probePos s.hash_seed k step)).state = EntryState.empty
    · rw [if_pos hemp] at h
      exact absurd h (by simp)
    · rw [if_neg hemp] at h
      by_cases hmatch : (s.table (probePos s.hash_seed k step)).state = EntryState.occupied ∧
          (s.table (probePos s.hash_seed k step)).key = k
      · exact Or.inl ⟨probePos s.hash_seed k step, probePos_lt _ _ _, hmatch⟩
      · rw [if_neg hmatch] at h
        rcases ih (step + 1) _ (by omega) h with hleft | ⟨hfd, hall⟩
        · exact Or.inl hleft
        · by_cases hdel : (s.table (probePos s.hash_seed k step)).state = EntryState.deleted ∧
              fd = none
          · rw [if_pos hdel] at hfd
            exact absurd hfd (by simp)
          · rw [if_neg hdel] at hfd
            refine Or.inr ⟨hfd, fun u h1 h2 => ?_⟩
            rcases Nat.lt_or_ge u (step + 1) with h3 | h3
            · have : u = step := by omega
              subst this
              cases hstate : (s.table (probePos s.hash_seed k u)).state with
              | empty => exact absurd hstate hemp
              | occupied => rfl
              | deleted => exact absurd ⟨hstate, hfd⟩ hdel
            · exact hall u h3 h2

/-- Success of `findEmptySlot`: if the key is not occupied anywhere and some
slot is not occupied, the loop returns a usable slot (the first empty slot on
the probe path, or the first tombstone when the path has no empty slot). -/
theorem findEmptySlot_succeeds {s : TableState} {k : Nat}
    (hnodup : ∀ i < 2048, ¬((s.table i).state = EntryState.occupied ∧ (s.table i).key = k))
    (hnonocc : ∃ i < 2048, (s.table i).state ≠ EntryState.occupied) :
    ∃ p, findEmptySlot s k (hash s.hash_seed k) = some p ∧ p < 2048 ∧
      ((s.table p).state = EntryState.empty ∨ (s.table p).state = EntryState.deleted) ∧
      ∃ m < 2048, probePos s.hash_seed k m = p ∧
        ∀ u < m, (s.table (probePos s.hash_seed k u)).state ≠ EntryState.empty := by
  cases heq : findEmptySlot s k (hash s.hash_seed k) with
  | none =>
    rcases findEmptyGo_none_char s k 2048 0 none rfl heq with hleft | ⟨_, hall⟩
    · obtain ⟨i, hi, hocc, hkey⟩ := hleft
      exact absurd ⟨hocc, hkey⟩ (hnodup i hi)
    · obtain ⟨i, hi, hemp⟩ := hnonocc
      obtain ⟨n, hn, hpn⟩ := probePos_surjective s.hash_seed k hi
      have := hall n (Nat.zero_le n) hn
      rw [hpn] at this
      exact absurd this hemp
  | some p =>
    have := findEmptyGo_some_sound s k 2048 0 none p rfl (by intro q hq; cases hq)
      (by intro u hu; omega) heq
    exact ⟨p, rfl, this⟩

/-! ## Value semantics -/

theorem setSlot_table_same (s : TableState) (p : Nat) (e : Entry) :
    (setSlot s p e).table p = e := by
  unfold setSlot
  exact Function.update_same p e s.table

theorem setSlot_table_noteq (s : TableState) (p : Nat) (e : Entry) {i : Nat}
    (h : i ≠ p) : (setSlot s p e).table i = s.table i := by
  unfold setSlot
  exact Function.update_noteq h e s.table

theorem storeVal_ValOk (v : List Nat) : ValOk (storeVal v) := by
  constructor
  · intro b hb
    have hb2 : b ∈ v.takeWhile (fun b => b != 0) := List.take_subset _ _ hb
    have := List.mem_takeWhile_imp hb2
    simpa using this
  · unfold storeVal MAX_VALUE_LEN
    rw [List.length_take]
    omega

theorem takeWhile_eq_self_of_ValOk {v : List Nat} (h : ∀ b ∈ v, b ≠ 0) :
    v.takeWhile (fun b => b != 0) = v := by
  induction v with
  | nil => rfl
  | cons a l ih =>
    have ha : a ≠ 0 := h a (List.mem_cons_self a l)
    have hpa : (a != 0) = true := by simpa using ha
    rw [List.takeWhile_cons, hpa]
    simp only [if_true]
    rw [ih (fun b hb => h b (List.mem_cons_of_mem a hb))]

theorem readVal_of_ValOk {v : List Nat} (h : ValOk v) : readVal v = v :=
  takeWhile_eq_self_of_ValOk h.1

theorem storeVal_of_ValOk {v : List Nat} (h : ValOk v) : storeVal v = v := by
  unfold storeVal MAX_VALUE_LEN
  rw [takeWhile_eq_self_of_ValOk h.1]
  exact List.take_of_length_le (by have := h.2; omega)

theorem storeVal_of_short {v : List Nat} (h : v.length < MAX_VALUE_LEN) :
    storeVal v = v.takeWhile (fun b => b != 0) := by
  have hsub : (v.takeWhile (fun b => b != 0)).length ≤ v.length :=
    (List.takeWhile_sublist _).length_le
  unfold MAX_VALUE_LEN at h
  unfold storeVal MAX_VALUE_LEN
  exact List.take_of_length_le (by omega)

theorem readVal_storeVal (v : List Nat) : readVal (storeVal v) = storeVal v :=
  readVal_of_ValOk (storeVal_ValOk v)

/-! ## Effect of a single slot write on the logical contents -/

theorem mem_occPairs_update {s : TableState} {p : Nat} {e : Entry} {k' : Nat}
    {w : List Nat} (hp : p < 2048) :
    ((k', w) ∈ occPairs (setSlot s p e)) ↔
      ((∃ i < 2048, i ≠ p ∧ (s.table i).state = EntryState.occupied ∧
          (s.table i).key = k' ∧ readVal (s.table i).value = w) ∨
        (e.state = EntryState.occupied ∧ e.key = k' ∧ readVal e.value = w)) := by
  rw [mem_occPairs]
  constructor
  · rintro ⟨i, hi, hocc, hk, hw⟩
    by_cases hip : i = p
    · subst hip
      rw [setSlot_table_same] at hocc hk hw
      exact Or.inr ⟨hocc, hk, hw⟩
    · rw [setSlot_table_noteq s p e hip] at hocc hk hw
      exact Or.inl ⟨i, hi, hip, hocc, hk, hw⟩
  · rintro (⟨i, hi, hip, hocc, hk, hw⟩ | ⟨hocc, hk, hw⟩)
    · refine ⟨i, hi, ?_⟩
      rw [setSlot_table_noteq s p e hip]
      exact ⟨hocc, hk, hw⟩
    · refine ⟨p, hp, ?_⟩
      rw [setSlot_table_same]
      exact ⟨hocc, hk, hw⟩

/-! ## Specification of updateRsc (value overwrite in place) -/

/-- Writing a new value into an occupied slot (the shared shape of
`updateRsc`, the update branch of `upsertRsc`, and each hit in
`batchUpdateRsc`) keeps the invariant, all counters, the seed, and every
logical pair whose key differs from the written slot's key. -/
theorem write_value_inv {s : TableState} {p : Nat} {v : List Nat} (hInv : Inv s)
    (hp : p < 2048) (hocc : (s.table p).state = EntryState.occupied) :
    Inv (setSlot s p { s.table p with value := storeVal v }) := by
  set s' := setSlot s p { s.table p with value := storeVal v } with hs'
  have htab : ∀ i, (s'.table i).state = (s.table i).state ∧ (s'.table i).key = (s.table i).key := by
    intro i
    by_cases hip : i = p
    · subst hip
      rw [hs', setSlot_table_same]
      exact ⟨rfl, rfl⟩
    · rw [hs', setSlot_table_noteq s p _ hip]
      exact ⟨rfl, rfl⟩
  have hcountO : countOcc s' = countOcc s := by
    apply countP_congr
    intro i _
    rw [(htab i).1]
  have hcountD : countDel s' = countDel s := by
    apply countP_congr
    intro i _
    rw [(htab i).1]
  constructor
  · show s.current_count = _
    rw [hcountO]
    exact hInv.occ_count
  · show s.deleted_count = _
    rw [hcountD]
    exact hInv.del_count
  · intro i hi j hj h1 h2 h3
    rw [(htab i).1] at h1
    rw [(htab j).1] at h2
    rw [(htab i).2, (htab j).2] at h3
    exact hInv.key_uniq i hi j hj h1 h2 h3
  · intro i hi h1
    rw [(htab i).1] at h1
    rw [(htab i).2]
    obtain ⟨n, hn, hpn, hpath⟩ := hInv.probe_reach i hi h1
    exact ⟨n, hn, hpn, fun u hu => by rw [(htab _).1]; exact hpath u hu⟩
  · intro i hi h1
    rw [(htab i).1] at h1
    by_cases hip : i = p
    · subst hip
      rw [hs', setSlot_table_same]
      exact storeVal_ValOk v
    · rw [hs', setSlot_table_noteq s p _ hip]
      exact hInv.val_ok i hi h1

/-! ## Inserting a fresh key at a slot delivered by findEmptySlot -/

/-- Inv_insert covers the slot write shared by `addRsc`, the insert branch of
`upsertRsc`, and the rebuild loop of `rehashIfNeeded`: writing a fresh key
into an empty or tombstoned slot that `findEmptySlot` chose (on the key's
probe path, with no empty slot strictly before it) preserves the invariant
once the counters are adjusted as the code does. -/
theorem Inv_insert {s : TableState} {k : Nat} {vstored : List Nat} {p m hv : Nat}
    (hInv : Inv s) (hp : p < 2048)
    (hnotocc : (s.table p).state ≠ EntryState.occupied)
    (hnodup : ∀ i < 2048,
      ¬((s.table i).state = EntryState.occupied ∧ (s.table i).key = k))
    (hm : m < 2048) (hpm : probePos s.hash_seed k m = p)
    (hpath : ∀ u < m, (s.table (probePos s.hash_seed k u)).state ≠ EntryState.empty)
    (hval : ValOk vstored)
    {s' : TableState}
    (htab : s'.table = Function.update s.table p ⟨k, vstored, EntryState.occupied, hv⟩)
    (hseed : s'.hash_seed = s.hash_seed)
    (hcc : s'.current_count = s.current_count + 1)
    (hdc : s'.deleted_count = s.deleted_count -
      (if (s.table p).state = EntryState.deleted then 1 else 0)) :
    Inv s' := by
  have htabs : ∀ i, i ≠ p → s'.table i = s.table i := by
    intro i hip
    rw [htab]
    exact Function.update_noteq hip _ s.table
  have htabp : s'.table p = ⟨k, vstored, EntryState.occupied, hv⟩ := by
    rw [htab]
    exact Function.update_same p _ s.table
  have hoccCount := countP_update s.table p ⟨k, vstored, EntryState.occupied, hv⟩
    (fun e => e.state = EntryState.occupied) hp
  have hdelCount := countP_update s.table p ⟨k, vstored, EntryState.occupied, hv⟩
    (fun e => e.state = EntryState.deleted) hp
  rw [if_neg hnotocc] at hoccCount
  rw [if_pos rfl] at hoccCount
  have hnewdel : ((⟨k, vstored, EntryState.occupied, hv⟩ : Entry).state =
      EntryState.deleted) = False := by simp
  simp only [hnewdel, if_false] at hdelCount
  have hcountO : countOcc s' = countP (Function.update s.table p
      ⟨k, vstored, EntryState.occupied, hv⟩) (fun e => e.state = EntryState.occupied) := by
    unfold countOcc
    rw [htab]
  have hcountD : countDel s' = countP (Function.update s.table p
      ⟨k, vstored, EntryState.occupied, hv⟩) (fun e => e.state = EntryState.deleted) := by
    unfold countDel
    rw [htab]
  constructor
  · rw [hcc, hInv.occ_count, hcountO]
    unfold countOcc
    omega
  · rw [hdc, hInv.del_count, hcountD]
    unfold countDel
    by_cases hdel : (s.table p).state = EntryState.deleted
    · rw [if_pos hdel]
      rw [if_pos hdel] at hdelCount
      omega
    · rw [if_neg hdel]
      rw [if_neg hdel] at hdelCount
      omega
  · intro i hi j hj h1 h2 h3
    by_cases hip : i = p <;> by_cases hjp : j = p
    · rw [hip, hjp]
    · rw [hip] at h3 ⊢
      rw [htabp] at h3
      rw [htabs j hjp] at h2 h3
      exact absurd ⟨h2, h3.symm⟩ (hnodup j hj)
    · rw [hjp] at h3 ⊢
      rw [htabp] at h3
      rw [htabs i hip] at h1 h3
      exact absurd ⟨h1, h3⟩ (hnodup i hi)
    · rw [htabs i hip] at h1 h3
      rw [htabs j hjp] at h2 h3
      exact hInv.key_uniq i hi j hj h1 h2 h3
  · intro i hi h1
    by_cases hip : i = p
    · rw [hip] at h1 ⊢
      rw [htabp]
      refine ⟨m, hm, ?_, ?_⟩
      · rw [hseed]
        exact hpm
      · intro u hu
        rw [hseed]
        by_cases hq : probePos s.hash_seed k u = p
        · rw [hq, htabp]
          intro hcon
          cases hcon
        · rw [htabs _ hq]
          exact hpath u hu
    · rw [htabs i hip] at h1 ⊢
      obtain ⟨n, hn, hpn, hpa⟩ := hInv.probe_reach i hi h1
      refine ⟨n, hn, ?_, ?_⟩
      · rw [hseed]
        exact hpn
      · intro u hu
        rw [hseed]
        by_cases hq : probePos s.hash_seed (s.table i).key u = p
        · rw [hq, htabp]
          intro hcon
          cases hcon
        · rw [htabs _ hq]
          exact hpa u hu
  · intro i hi h1
    by_cases hip : i = p
    · rw [hip] at h1 ⊢
      rw [htabp]
      exact hval
    · rw [htabs i hip] at h1 ⊢
      exact hInv.val_ok i hi h1

/-! ## The snapshot map of rehashIfNeeded -/

/-- MapOrd is the representation invariant of the `std::map` model: strictly
increasing keys. -/
def MapOrd (m : List (Nat × List Nat)) : Prop :=
  List.Chain' (fun a b => a.1 < b.1) m

theorem mapOrd_nil : MapOrd [] := List.chain'_nil

theorem mapOrd_cons {x : Nat × List Nat} {m : List (Nat × List Nat)}
    (h : MapOrd (x :: m)) : MapOrd m :=
  List.Chain'.tail h

theorem mapOrd_head_lt {x : Nat × List Nat} {m : List (Nat × List Nat)}
    (h : MapOrd (x :: m)) : ∀ y ∈ m, x.1 < y.1 := by
  induction m generalizing x with
  | nil => intro y hy; cases hy
  | cons z rest ih =>
    intro y hy
    have hxz : x.1 < z.1 := (List.chain'_cons.mp h).1
    rcases List.mem_cons.mp hy with hyz | hyr
    · rw [hyz]; exact hxz
    · exact lt_trans hxz (ih (List.chain'_cons.mp h).2 y hyr)

theorem mem_of_mem_mapInsert {m : List (Nat × List Nat)} {k : Nat}
    {v : List Nat} {z : Nat × List Nat} (hz : z ∈ mapInsert m k v) :
    z.1 = k ∨ z ∈ m := by
  induction m with
  | nil =>
    rw [mapInsert] at hz
    rcases List.mem_cons.mp hz with h3 | h3
    · exact Or.inl (congrArg Prod.fst h3)
    · cases h3
  | cons w rest2 ih2 =>
    rw [mapInsert] at hz
    by_cases h3 : k < w.1
    · rw [if_pos h3] at hz
      rcases List.mem_cons.mp hz with h4 | h4
      · exact Or.inl (congrArg Prod.fst h4)
      · exact Or.inr h4
    · rw [if_neg h3] at hz
      by_cases h4 : k = w.1
      · rw [if_pos h4] at hz
        rcases List.mem_cons.mp hz with h5 | h5
        · exact Or.inl (congrArg Prod.fst h5)
        · exact Or.inr (List.mem_cons_of_mem _ h5)
      · rw [if_neg h4] at hz
        rcases List.mem_cons.mp hz with h5 | h5
        · exact Or.inr (by rw [h5]; exact List.mem_cons_self _ rest2)
        · rcases ih2 h5 with h6 | h6
          · exact Or.inl h6
          · exact Or.inr (List.mem_cons_of_mem _ h6)

theorem mapInsert_ord {m : List (Nat × List Nat)} (k : Nat) (v : List Nat)
    (h : MapOrd m) : MapOrd (mapInsert m k v) := by
  induction m with
  | nil => exact List.chain'_singleton _
  | cons x rest ih =>
    rw [mapInsert]
    by_cases h1 : k < x.1
    · rw [if_pos h1]
      exact List.chain'_cons.mpr ⟨h1, h⟩
    · rw [if_neg h1]
      by_cases h2 : k = x.1
      · rw [if_pos h2]
        rcases rest with _ | ⟨z, rest'⟩
        · exact List.chain'_singleton _
        · exact List.chain'_cons.mpr ⟨h2 ▸ (List.chain'_cons.mp h).1,
            (List.chain'_cons.mp h).2⟩
      · rw [if_neg h2]
        have hrec := ih (mapOrd_cons h)
        rcases hrest : mapInsert rest k v with _ | ⟨z, rest'⟩
        · exact List.chain'_singleton _
        · rw [hrest] at hrec
          refine List.chain'_cons.mpr ⟨?_, hrec⟩
          have hz : z ∈ mapInsert rest k v := by
            rw [hrest]
            exact List.mem_cons_self z rest'
          rcases mem_of_mem_mapInsert hz with h3 | h3
          · rw [h3]; omega
          · exact mapOrd_head_lt h z h3

theorem mem_mapInsert {m : List (Nat × List Nat)} {k a : Nat} {v b : List Nat}
    (hord : MapOrd m) :
    (a, b) ∈ mapInsert m k v ↔ ((a, b) = (k, v) ∨ ((a, b) ∈ m ∧ a ≠ k)) := by
  induction m with
  | nil =>
    rw [mapInsert]
    simp
  | cons x rest ih =>
    rw [mapInsert]
    by_cases h1 : k < x.1
    · rw [if_pos h1]
      constructor
      · intro hmem
        rcases List.mem_cons.mp hmem with h2 | h2
        · exact Or.inl h2
        · refine Or.inr ⟨h2, ?_⟩
          rcases List.mem_cons.mp h2 with h3 | h3
          · have ha : a = x.1 := congrArg Prod.fst h3
            omega
          · have := mapOrd_head_lt hord _ h3
            simp only at this
            omega
      · rintro (h2 | ⟨h2, h3⟩)
        · rw [h2]
          exact List.mem_cons_self _ _
        · exact List.mem_cons_of_mem _ h2
    · rw [if_neg h1]
      by_cases h2 : k = x.1
      · rw [if_pos h2]
        constructor
        · intro hmem
          rcases List.mem_cons.mp hmem with h3 | h3
          · exact Or.inl h3
          · refine Or.inr ⟨List.mem_cons_of_mem x h3, ?_⟩
            have := mapOrd_head_lt hord _ h3
            omega
        · rintro (h3 | ⟨h3, h4⟩)
          · rw [h3]
            exact List.mem_cons_self _ _
          · rcases List.mem_cons.mp h3 with h5 | h5
            · exfalso
              apply h4
              have ha : a = x.1 := congrArg Prod.fst h5
              omega
            · exact List.mem_cons_of_mem _ h5
      · rw [if_neg h2]
        constructor
        · intro hmem
          rcases List.mem_cons.mp hmem with h3 | h3
          · refine Or.inr ⟨by rw [h3]; exact List.mem_cons_self _ _, ?_⟩
            have ha : a = x.1 := congrArg Prod.fst h3
            omega
          · rcases (ih (mapOrd_cons hord)).mp h3 with h4 | ⟨h4, h5⟩
            · exact Or.inl h4
            · exact Or.inr ⟨List.mem_cons_of_mem x h4, h5⟩
        · rintro (h3 | ⟨h3, h4⟩)
          · exact List.mem_cons_of_mem x ((ih (mapOrd_cons hord)).mpr (Or.inl h3))
          · rcases List.mem_cons.mp h3 with h5 | h5
            · rw [h5]
              exact List.mem_cons_self _ _
            · exact List.mem_cons_of_mem x ((ih (mapOrd_cons hord)).mpr (Or.inr ⟨h5, h4⟩))

theorem mapInsert_length_le (m : List (Nat × List Nat)) (k : Nat) (v : List Nat) :
    (mapInsert m k v).length ≤ m.length + 1 := by
  induction m with
  | nil => rw [mapInsert]; simp
  | cons x rest ih =>
    rw [mapInsert]
    by_cases h1 : k < x.1
    · rw [if_pos h1]; simp
    · rw [if_neg h1]
      by_cases h2 : k = x.1
      · rw [if_pos h2]; simp
      · rw [if_neg h2]
        simp only [List.length_cons]
        omega

theorem mapInsert_length_of_fresh {m : List (Nat × List Nat)} {k : Nat}
    {v : List Nat} (h : ∀ y ∈ m, y.1 ≠ k) :
    (mapInsert m k v).length = m.length + 1 := by
  induction m with
  | nil => rfl
  | cons x rest ih =>
    rw [mapInsert]
    by_cases h1 : k < x.1
    · rw [if_pos h1]
      simp
    · rw [if_neg h1]
      by_cases h2 : k = x.1
      · exact absurd h2.symm (h x (List.mem_cons_self x rest))
      · rw [if_neg h2]
        simp only [List.length_cons]
        rw [ih (fun y hy => h y (List.mem_cons_of_mem x hy))]

theorem mapOrd_keys_nodup {m : List (Nat × List Nat)} (h : MapOrd m) :
    (m.map Prod.fst).Nodup := by
  induction m with
  | nil => exact List.nodup_nil
  | cons x rest ih =>
    rw [List.map_cons, List.nodup_cons]
    refine ⟨?_, ih (mapOrd_cons h)⟩
    intro hmem
    obtain ⟨y, hy, hyx⟩ := List.mem_map.mp hmem
    have := mapOrd_head_lt h y hy
    omega

/-- snapStep is the loop body of the snapshot pass of `rehashIfNeeded`. -/
def snapStep (s : TableState) (m : List (Nat × List Nat)) (i : Nat) :
    List (Nat × List Nat) :=
  if (s.table i).state = EntryState.occupied
  then mapInsert m (s.table i).key (readVal (s.table i).value)
  else m

theorem tempData_eq (s : TableState) :
    tempData s = List.foldl (snapStep s) [] (List.range RWLOCK_HASH_TABLE_SIZE) := rfl

theorem snap_fold_spec (s : TableState)
    (huniq : ∀ i < 2048, ∀ j < 2048,
      (s.table i).state = EntryState.occupied →
      (s.table j).state = EntryState.occupied →
      (s.table i).key = (s.table j).key → i = j) :
    ∀ (l : List Nat) (acc : List (Nat × List Nat)),
      MapOrd acc →
      l.Nodup →
      (∀ i ∈ l, i < 2048) →
      (∀ a b, (a, b) ∈ acc → ∀ i ∈ l,
        (s.table i).state = EntryState.occupied → (s.table i).key ≠ a) →
      MapOrd (l.foldl (snapStep s) acc) ∧
      (∀ a b, (a, b) ∈ l.foldl (snapStep s) acc ↔
        ((a, b) ∈ acc ∨ ∃ i ∈ l, (s.table i).state = EntryState.occupied ∧
          (s.table i).key = a ∧ readVal (s.table i).value = b)) ∧
      (l.foldl (snapStep s) acc).length = acc.length +
        l.countP (fun i => decide ((s.table i).state = EntryState.occupied)) := by
  intro l
  induction l with
  | nil =>
    intro acc hord _ _ _
    refine ⟨hord, ?_, by simp⟩
    intro a b
    simp
  | cons i l' ih =>
    intro acc hord hnodup hbound hfresh
    rw [List.foldl_cons]
    by_cases hocc : (s.table i).state = EntryState.occupied
    · have hstep : snapStep s acc i =
          mapInsert acc (s.table i).key (readVal (s.table i).value) := by
        unfold snapStep
        rw [if_pos hocc]
      have hord' : MapOrd (snapStep s acc i) := by
        rw [hstep]
        exact mapInsert_ord _ _ hord
      have hfresh' : ∀ a b, (a, b) ∈ snapStep s acc i → ∀ j ∈ l',
          (s.table j).state = EntryState.occupied → (s.table j).key ≠ a := by
        intro a b hmem j hj hoccj
        rw [hstep] at hmem
        rcases (mem_mapInsert hord).mp hmem with heq | ⟨hmem2, hne⟩
        · have ha : a = (s.table i).key := congrArg Prod.fst heq
          intro hkey
          have hij : i ≠ j := by
            intro hcon
            rw [hcon] at hnodup
            exact (List.nodup_cons.mp hnodup).1 hj
          exact hij (huniq i (hbound i (List.mem_cons_self i l')) j
            (hbound j (List.mem_cons_of_mem i hj)) hocc hoccj (by rw [hkey, ha]))
        · exact hfresh a b hmem2 j (List.mem_cons_of_mem i hj) hoccj
      obtain ⟨hc1, hc2, hc3⟩ := ih (snapStep s acc i) hord'
        (List.nodup_cons.mp hnodup).2
        (fun j hj => hbound j (List.mem_cons_of_mem i hj)) hfresh'
      refine ⟨hc1, ?_, ?_⟩
      · intro a b
        rw [hc2 a b]
        constructor
        · rintro (hmem | ⟨j, hj, hj2⟩)
          · rw [hstep] at hmem
            rcases (mem_mapInsert hord).mp hmem with heq | ⟨hmem2, hne⟩
            · refine Or.inr ⟨i, List.mem_cons_self i l', hocc,
                (congrArg Prod.fst heq).symm, (congrArg Prod.snd heq).symm⟩
            · exact Or.inl hmem2
          · exact Or.inr ⟨j, List.mem_cons_of_mem i hj, hj2⟩
        · rintro (hmem | ⟨j, hj, hoccj, hkey, hval⟩)
          · refine Or.inl ?_
            rw [hstep]
            refine (mem_mapInsert hord).mpr (Or.inr ⟨hmem, ?_⟩)
            exact (hfresh a b hmem i (List.mem_cons_self i l') hocc).symm
          · rcases List.mem_cons.mp hj with hji | hjl
            · refine Or.inl ?_
              rw [hstep]
              refine (mem_mapInsert hord).mpr (Or.inl ?_)
              rw [hji] at hoccj hkey hval
              rw [← hkey, ← hval]
            · exact Or.inr ⟨j, hjl, hoccj, hkey, hval⟩
      · have hlen : (snapStep s acc i).length = acc.length + 1 := by
          rw [hstep]
          apply mapInsert_length_of_fresh
          intro y hy
          have hne := hfresh y.1 y.2 (by rw [Prod.mk.eta]; exact hy) i
            (List.mem_cons_self i l') hocc
          exact fun hcon => hne hcon.symm
        rw [hc3, hlen, List.countP_cons, if_pos (by simpa using hocc)]
        omega
    · have hstep : snapStep s acc i = acc := by
        unfold snapStep
        rw [if_neg hocc]
      rw [hstep]
      obtain ⟨hc1, hc2, hc3⟩ := ih acc hord (List.nodup_cons.mp hnodup).2
        (fun j hj => hbound j (List.mem_cons_of_mem i hj))
        (fun a b hmem j hj => hfresh a b hmem j (List.mem_cons_of_mem i hj))
      refine ⟨hc1, ?_, ?_⟩
      · intro a b
        rw [hc2 a b]
        constructor
        · rintro (hmem | ⟨j, hj, hj2⟩)
          · exact Or.inl hmem
          · exact Or.inr ⟨j, List.mem_cons_of_mem i hj, hj2⟩
        · rintro (hmem | ⟨j, hj, hoccj, hkey, hval⟩)
          · exact Or.inl hmem
          · rcases List.mem_cons.mp hj with hji | hjl
            · rw [hji] at hoccj
              exact absurd hoccj hocc
            · exact Or.inr ⟨j, hjl, hoccj, hkey, hval⟩
      · rw [hc3, List.countP_cons, if_neg (by simpa using hocc)]
        omega

theorem tempData_spec (s : TableState) (hInv : Inv s) :
    MapOrd (tempData s) ∧
    (∀ a b, (a, b) ∈ tempData s ↔ ∃ i < 2048,
      (s.table i).state = EntryState.occupied ∧
      (s.table i).key = a ∧ readVal (s.table i).value = b) ∧
    (tempData s).length = countOcc s := by
  obtain ⟨h1, h2, h3⟩ := snap_fold_spec s hInv.key_uniq
    (List.range RWLOCK_HASH_TABLE_SIZE) [] mapOrd_nil (List.nodup_range _)
    (fun i hi => List.mem_range.mp hi) (by intro a b hmem; cases hmem)
  rw [tempData_eq]
  refine ⟨h1, ?_, ?_⟩
  case refine_2 =>
    rw [h3, List.length_nil, countOcc_eq_listCount]
    omega
  intro a b
  rw [h2 a b]
  constructor
  · rintro (hmem | ⟨i, hi, hrest⟩)
    · cases hmem
    · exact ⟨i, List.mem_range.mp hi, hrest⟩
  · rintro ⟨i, hi, hrest⟩
    exact Or.inr ⟨i, List.mem_range.mpr hi, hrest⟩

theorem occPairs_congr {s1 s2 : TableState} (h : s1.table = s2.table) :
    occPairs s1 = occPairs s2 := by
  unfold occPairs
  rw [h]

/-! ## The rebuild loop of rehashIfNeeded -/

theorem reinsertAll_spec :
    ∀ (l : List (Nat × List Nat)) (t : TableState),
      Inv t →
      (∀ i, i < 2048 → (t.table i).state ≠ EntryState.deleted) →
      ((l.map Prod.fst).Nodup) →
      (∀ kv ∈ l, ∀ i, i < 2048 → (t.table i).state = EntryState.occupied →
        (t.table i).key ≠ kv.1) →
      (∀ kv ∈ l, ValOk kv.2) →
      countOcc t + l.length ≤ 2048 →
      (reinsertAll l t).1 = OK ∧
      Inv (reinsertAll l t).2 ∧
      (reinsertAll l t).2.hash_seed = t.hash_seed ∧
      (reinsertAll l t).2.deleted_count = t.deleted_count ∧
      (∀ i, i < 2048 → ((reinsertAll l t).2.table i).state ≠ EntryState.deleted) ∧
      countOcc (reinsertAll l t).2 = countOcc t + l.length ∧
      (∀ a b, (a, b) ∈ occPairs (reinsertAll l t).2 ↔
        ((a, b) ∈ occPairs t ∨ (a, b) ∈ l)) := by
  intro l
  induction l with
  | nil =>
    intro t hInv hnodel _ _ _ _
    refine ⟨rfl, hInv, rfl, rfl, hnodel, by simp [reinsertAll], ?_⟩
    intro a b
    simp [reinsertAll]
  | cons kv l ih =>
    obtain ⟨k, v⟩ := kv
    intro t hInv hnodel hnodup hdisj hvalok hcount
    -- the head key is absent and an empty slot exists, so findEmptySlot succeeds
    have hnodupk : ∀ i < 2048,
        ¬((t.table i).state = EntryState.occupied ∧ (t.table i).key = k) := by
      intro i hi ⟨hocc, hkey⟩
      exact hdisj (k, v) (List.mem_cons_self _ _) i hi hocc hkey
    have hempty : ∃ i < 2048, (t.table i).state = EntryState.empty := by
      have hlt : countOcc t < 2048 := by
        simp only [List.length_cons] at hcount
        omega
      obtain ⟨i, hi, hnocc⟩ := exists_not_of_countP_lt t.table _ hlt
      refine ⟨i, hi, ?_⟩
      cases hstate : (t.table i).state with
      | empty => rfl
      | occupied => exact absurd hstate hnocc
      | deleted => exact absurd hstate (hnodel i hi)
    obtain ⟨p, hfind, hp, hstate, m, hm, hpm, hpath⟩ :=
      findEmptySlot_succeeds hnodupk
        (by
          obtain ⟨i, hi, hemp⟩ := hempty
          exact ⟨i, hi, by rw [hemp]; intro hcon; cases hcon⟩)
    have hpempty : (t.table p).state = EntryState.empty := by
      rcases hstate with h | h
      · exact h
      · exact absurd h (hnodel p hp)
    have hrw : reinsertAll ((k, v) :: l) t =
        reinsertAll l { setSlot t p ⟨k, storeVal v, EntryState.occupied,
          hash t.hash_seed k⟩ with
            current_count := (setSlot t p ⟨k, storeVal v, EntryState.occupied,
              hash t.hash_seed k⟩).current_count + 1 } := by
      rw [reinsertAll, hfind]
    set e : Entry := ⟨k, storeVal v, EntryState.occupied, hash t.hash_seed k⟩ with he
    set t1 : TableState := { setSlot t p e with
      current_count := (setSlot t p e).current_count + 1 } with ht1
    have ht1tab : t1.table = Function.update t.table p e := rfl
    have hInv1 : Inv t1 := by
      refine Inv_insert hInv hp (by rw [hpempty]; intro hcon; cases hcon) hnodupk
        hm hpm hpath (storeVal_ValOk v) ht1tab rfl rfl ?_
      rw [if_neg (by rw [hpempty]; intro hcon; cases hcon)]
      simp [ht1, setSlot]
    have hvk : ValOk v := hvalok (k, v) (List.mem_cons_self _ _)
    have hsv : storeVal v = v := storeVal_of_ValOk hvk
    have hknotin : k ∉ (l.map Prod.fst) := (List.nodup_cons.mp (by simpa using hnodup)).1
    have hpnotocc : ¬((t.table p).state = EntryState.occupied) := by
      rw [hpempty]
      intro hcon
      cases hcon
    have heocc : e.state = EntryState.occupied := by rw [he]
    have hcount1 : countOcc t1 = countOcc t + 1 := by
      have hupd := countP_update t.table p e (fun x => x.state = EntryState.occupied) hp
      rw [if_neg hpnotocc] at hupd
      rw [if_pos heocc] at hupd
      unfold countOcc
      rw [ht1tab]
      omega
    have hnodel1 : ∀ i, i < 2048 → (t1.table i).state ≠ EntryState.deleted := by
      intro i hi
      by_cases hip : i = p
      · rw [ht1tab, hip, Function.update_same, he]
        intro hcon
        cases hcon
      · rw [ht1tab, Function.update_noteq hip]
        exact hnodel i hi
    have hdisj1 : ∀ kv ∈ l, ∀ i, i < 2048 →
        (t1.table i).state = EntryState.occupied → (t1.table i).key ≠ kv.1 := by
      intro kv hkv i hi hocc
      by_cases hip : i = p
      · rw [ht1tab, hip, Function.update_same]
        intro hcon
        exact hknotin (List.mem_map.mpr ⟨kv, hkv, hcon.symm⟩)
      · rw [ht1tab, Function.update_noteq hip] at hocc ⊢
        exact hdisj kv (List.mem_cons_of_mem _ hkv) i hi hocc
    obtain ⟨hr1, hr2, hr3, hr4, hr5, hr6, hr7⟩ := ih t1 hInv1 hnodel1
      (by simpa using (List.nodup_cons.mp (by simpa using hnodup)).2)
      hdisj1 (fun kv hkv => hvalok kv (List.mem_cons_of_mem _ hkv))
      (by simp only [List.length_cons] at hcount; omega)
    rw [hrw]
    refine ⟨hr1, hr2, by rw [hr3]; rfl, by rw [hr4]; rfl, hr5, ?_, ?_⟩
    · rw [hr6, hcount1]
      simp only [List.length_cons]
      omega
    · intro a b
      rw [hr7 a b]
      have hpairs1 : (a, b) ∈ occPairs t1 ↔
          ((a, b) ∈ occPairs t ∨ (a, b) = (k, v)) := by
        rw [occPairs_congr (show t1.table = (setSlot t p e).table from rfl),
          mem_occPairs_update hp]
        constructor
        · rintro (⟨i, hi, hip, hocc, hkey, hval⟩ | ⟨_, hkey, hval⟩)
          · exact Or.inl (mem_occPairs.mpr ⟨i, hi, hocc, hkey, hval⟩)
          · refine Or.inr ?_
            rw [he] at hkey hval
            rw [readVal_storeVal, hsv] at hval
            rw [← hkey, ← hval]
        · rintro (hmem | heq)
          · obtain ⟨i, hi, hocc, hkey, hval⟩ := mem_occPairs.mp hmem
            refine Or.inl ⟨i, hi, ?_, hocc, hkey, hval⟩
            intro hcon
            rw [hcon, hpempty] at hocc
            cases hocc
          · refine Or.inr ⟨by rw [he], ?_, ?_⟩
            · rw [he]
              exact (congrArg Prod.fst heq).symm
            · rw [he]
              simp only
              rw [readVal_storeVal, hsv]
              exact (congrArg Prod.snd heq).symm
      rw [hpairs1]
      constructor
      · rintro ((hmem | heq) | hmem)
        · exact Or.inl hmem
        · exact Or.inr (by rw [heq]; exact List.mem_cons_self _ _)
        · exact Or.inr (List.mem_cons_of_mem _ hmem)
      · rintro (hmem | hmem)
        · exact Or.inl (Or.inl hmem)
        · rcases List.mem_cons.mp hmem with heq | hmem2
          · exact Or.inl (Or.inr heq)
          · exact Or.inr hmem2

/-! ## Correctness of rehashIfNeeded -/

theorem rehashIfNeeded_id {s : TableState} (h : ¬(needRehash s = true)) :
    rehashIfNeeded s = (OK, s) := by
  rw [rehashIfNeeded, if_neg h]

theorem clearSlots_state (s : TableState) (i : Nat) :
    ((clearSlots s).table i).state = EntryState.empty := rfl

/-- rehashIfNeeded always succeeds on a well-formed table, keeps the seed and
the logical contents, and leaves no tombstones behind when it rebuilds. -/
theorem rehashIfNeeded_spec (s : TableState) (hInv : Inv s) :
    (rehashIfNeeded s).1 = OK ∧
    Inv (rehashIfNeeded s).2 ∧
    (rehashIfNeeded s).2.hash_seed = s.hash_seed ∧
    (∀ a b, (a, b) ∈ occPairs (rehashIfNeeded s).2 ↔ (a, b) ∈ occPairs s) ∧
    countOcc (rehashIfNeeded s).2 = countOcc s ∧
    (needRehash s = true → (rehashIfNeeded s).2.deleted_count = 0 ∧
      (rehashIfNeeded s).2.current_count = (countOcc (rehashIfNeeded s).2 : Int)) := by
  by_cases hreh : needRehash s = true
  · obtain ⟨hord, hmem, hlen⟩ := tempData_spec s hInv
    set s1 : TableState := { clearSlots s with current_count := 0, deleted_count := 0 }
      with hs1
    have hs1state : ∀ i, (s1.table i).state = EntryState.empty := fun i => rfl
    have hInv1 : Inv s1 := by
      constructor
      · show (0 : Int) = _
        have : countOcc s1 = 0 := by
          unfold countOcc countP
          rw [Finset.filter_false_of_mem, Finset.card_empty]
          intro i _
          simp [clearSlots_state s i]
        rw [this]
        rfl
      · show (0 : Int) = _
        have : countDel s1 = 0 := by
          unfold countDel countP
          rw [Finset.filter_false_of_mem, Finset.card_empty]
          intro i _
          simp [clearSlots_state s i]
        rw [this]
        rfl
      · intro i _ j _ h1
        rw [hs1state i] at h1
        cases h1
      · intro i _ h1
        rw [hs1state i] at h1
        cases h1
      · intro i _ h1
        rw [hs1state i] at h1
        cases h1
    have hcount1 : countOcc s1 = 0 := by
      unfold countOcc countP
      rw [Finset.filter_false_of_mem, Finset.card_empty]
      intro i _
      simp [clearSlots_state s i]
    have hrw : rehashIfNeeded s = reinsertAll (tempData s) s1 := by
      rw [rehashIfNeeded, if_pos hreh]
    obtain ⟨hr1, hr2, hr3, hr4, hr5, hr6, hr7⟩ := reinsertAll_spec (tempData s) s1
      hInv1 (fun i _ => by rw [hs1state i]; intro hcon; cases hcon)
      (mapOrd_keys_nodup hord)
      (fun kv _ i _ hocc => by rw [hs1state i] at hocc; cases hocc)
      (by
        rintro ⟨a, b⟩ hkv
        obtain ⟨i, hi, hocc, hkey, hval⟩ := (hmem a b).mp hkv
        have hv := hInv.val_ok i hi hocc
        rw [readVal_of_ValOk hv] at hval
        rw [← hval]
        exact hv)
      (by
        rw [hcount1, hlen]
        have hb : countOcc s ≤ 2048 :=
          countP_le s.table (fun e => e.state = EntryState.occupied)
        omega)
    rw [hrw]
    refine ⟨hr1, hr2, hr3.trans rfl, ?_,
      by rw [hr6, hcount1, hlen]; omega,
      fun _ => ⟨hr4.trans rfl, hr2.occ_count⟩⟩
    intro a b
    rw [hr7 a b]
    constructor
    · rintro (hmem1 | hmem1)
      · obtain ⟨i, hi, hocc, _, _⟩ := mem_occPairs.mp hmem1
        rw [hs1state i] at hocc
        cases hocc
      · obtain ⟨i, hi, hocc, hkey, hval⟩ := (hmem a b).mp hmem1
        exact mem_occPairs.mpr ⟨i, hi, hocc, hkey, hval⟩
    · intro hmem1
      obtain ⟨i, hi, hocc, hkey, hval⟩ := mem_occPairs.mp hmem1
      exact Or.inr ((hmem a b).mpr ⟨i, hi, hocc, hkey, hval⟩)
  · rw [rehashIfNeeded_id hreh]
    exact ⟨rfl, hInv, rfl, fun a b => Iff.rfl, rfl, fun hcon => absurd hcon hreh⟩

/-! ## Characterization of insertWrite and the addRsc branches -/

theorem insertWrite_table (s1 : TableState) (k : Nat) (v : List Nat) (hv pos : Nat) :
    (insertWrite s1 k v hv pos).table =
      Function.update s1.table pos ⟨k, storeVal v, EntryState.occupied, hv⟩ := by
  simp only [insertWrite]
  by_cases h : (s1.table pos).state = EntryState.deleted <;> simp [h, setSlot]

theorem insertWrite_current (s1 : TableState) (k : Nat) (v : List Nat) (hv pos : Nat) :
    (insertWrite s1 k v hv pos).current_count = s1.current_count + 1 := by
  simp only [insertWrite]
  by_cases h : (s1.table pos).state = EntryState.deleted <;> simp [h, setSlot]

theorem insertWrite_deleted (s1 : TableState) (k : Nat) (v : List Nat) (hv pos : Nat) :
    (insertWrite s1 k v hv pos).deleted_count = s1.deleted_count -
      (if (s1.table pos).state = EntryState.deleted then 1 else 0) := by
  simp only [insertWrite]
  by_cases h : (s1.table pos).state = EntryState.deleted <;> simp [h, setSlot]

theorem insertWrite_seed (s1 : TableState) (k : Nat) (v : List Nat) (hv pos : Nat) :
    (insertWrite s1 k v hv pos).hash_seed = s1.hash_seed := by
  simp only [insertWrite]
  by_cases h : (s1.table pos).state = EntryState.deleted <;> simp [h, setSlot]

/-- The insert branch shared by `addRsc` and `upsertRsc`: whenever
`findEmptySlot` returns a slot, writing the new entry preserves the invariant,
adds the pair `(key, storeVal v)`, and leaves every other key's pairs
untouched. -/
theorem insert_branch_spec {s1 : TableState} {k : Nat} {v : List Nat} {pos : Nat}
    (hInv1 : Inv s1)
    (hfind : findEmptySlot s1 k (hash s1.hash_seed k) = some pos) :
    Inv (insertWrite s1 k v (hash s1.hash_seed k) pos) ∧
    (insertWrite s1 k v (hash s1.hash_seed k) pos).hash_seed = s1.hash_seed ∧
    (∀ a b, a ≠ k →
      ((a, b) ∈ occPairs (insertWrite s1 k v (hash s1.hash_seed k) pos) ↔
        (a, b) ∈ occPairs s1)) ∧
    (k, storeVal v) ∈ occPairs (insertWrite s1 k v (hash s1.hash_seed k) pos) := by
  have habs : ∀ i < 2048,
      ¬((s1.table i).state = EntryState.occupied ∧ (s1.table i).key = k) := by
    rintro i hi ⟨hocc, hkey⟩
    have := findEmptySlot_dup hInv1 hi hocc hkey
    rw [this] at hfind
    cases hfind
  obtain ⟨hp, hstate, m, hm, hpm, hpath⟩ :=
    findEmptyGo_some_sound s1 k 2048 0 none pos rfl (by intro q hq; cases hq)
      (by intro u hu; omega) hfind
  have hnotocc : (s1.table pos).state ≠ EntryState.occupied := by
    rcases hstate with h | h <;> rw [h] <;> intro hcon <;> cases hcon
  have hInvW : Inv (insertWrite s1 k v (hash s1.hash_seed k) pos) :=
    Inv_insert hInv1 hp hnotocc habs hm hpm hpath (storeVal_ValOk v)
      (insertWrite_table s1 k v _ pos) (insertWrite_seed s1 k v _ pos)
      (insertWrite_current s1 k v _ pos) (insertWrite_deleted s1 k v _ pos)
  have htabeq : (insertWrite s1 k v (hash s1.hash_seed k) pos).table =
      (setSlot s1 pos ⟨k, storeVal v, EntryState.occupied, hash s1.hash_seed k⟩).table := by
    rw [insertWrite_table]
    rfl
  refine ⟨hInvW, insertWrite_seed s1 k v _ pos, ?_, ?_⟩
  · intro a b hak
    rw [occPairs_congr htabeq, mem_occPairs_update hp]
    constructor
    · rintro (⟨i, hi, _, hocc, hkey, hval⟩ | ⟨_, hkey, _⟩)
      · exact mem_occPairs.mpr ⟨i, hi, hocc, hkey, hval⟩
      · exact absurd hkey.symm hak
    · intro hmem
      obtain ⟨i, hi, hocc, hkey, hval⟩ := mem_occPairs.mp hmem
      refine Or.inl ⟨i, hi, ?_, hocc, hkey, hval⟩
      intro hcon
      rw [hcon] at hocc
      exact hnotocc hocc
  · rw [occPairs_congr htabeq, mem_occPairs_update hp]
    exact Or.inr ⟨rfl, rfl, readVal_storeVal v⟩

theorem addRsc_long {s : TableState} {k : Nat} {v : List Nat}
    (hlen : MAX_VALUE_LEN ≤ v.length) : addRsc s k v = (NO_SPACE_ERR, s) := by
  rw [addRsc, if_pos hlen]

theorem addRsc_none {s : TableState} {k : Nat} {v : List Nat}
    (hlen : ¬(MAX_VALUE_LEN ≤ v.length)) (hok : (rehashIfNeeded s).1 = OK)
    (hfind : findEmptySlot (rehashIfNeeded s).2 k
      (hash (rehashIfNeeded s).2.hash_seed k) = none) :
    addRsc s k v = ((if RWLOCK_MAX_ENTRIES ≤ (rehashIfNeeded s).2.current_count
      then NO_SPACE_ERR else DUPLICATE_KEY), (rehashIfNeeded s).2) := by
  rw [addRsc, if_neg hlen, if_neg (show ¬((rehashIfNeeded s).1 ≠ OK) by rw [hok]; simp),
    hfind]

theorem addRsc_some {s : TableState} {k : Nat} {v : List Nat} {pos : Nat}
    (hlen : ¬(MAX_VALUE_LEN ≤ v.length)) (hok : (rehashIfNeeded s).1 = OK)
    (hfind : findEmptySlot (rehashIfNeeded s).2 k
      (hash (rehashIfNeeded s).2.hash_seed k) = some pos) :
    addRsc s k v = (OK, insertWrite (rehashIfNeeded s).2 k v
      (hash (rehashIfNeeded s).2.hash_seed k) pos) := by
  rw [addRsc, if_neg hlen, if_neg (show ¬((rehashIfNeeded s).1 ≠ OK) by rw [hok]; simp),
    hfind]

/-- addRsc preserves the invariant, the seed, and every other key's logical
pair, in all of its branches. -/
theorem addRsc_spec (s : TableState) (k : Nat) (v : List Nat) (hInv : Inv s) :
    Inv (addRsc s k v).2 ∧
    (addRsc s k v).2.hash_seed = s.hash_seed ∧
    (∀ a b, a ≠ k → ((a, b) ∈ occPairs (addRsc s k v).2 ↔ (a, b) ∈ occPairs s)) := by
  obtain ⟨hR1, hRInv, hRseed, hRpairs, hRcount, _⟩ := rehashIfNeeded_spec s hInv
  by_cases hlen : MAX_VALUE_LEN ≤ v.length
  · rw [addRsc_long hlen]
    exact ⟨hInv, rfl, fun a b _ => Iff.rfl⟩
  · cases hfind : findEmptySlot (rehashIfNeeded s).2 k
        (hash (rehashIfNeeded s).2.hash_seed k) with
    | none =>
      rw [addRsc_none hlen hR1 hfind]
      exact ⟨hRInv, hRseed, fun a b _ => hRpairs a b⟩
    | some pos =>
      rw [addRsc_some hlen hR1 hfind]
      obtain ⟨hI, hS, hP, _⟩ := insert_branch_spec hRInv hfind
      exact ⟨hI, hS.trans hRseed, fun a b hab => (hP a b hab).trans (hRpairs a b)⟩

/-- addRsc succeeds on an absent key when the table is not completely full,
and the stored pair is the NUL-truncated value. -/
theorem addRsc_ok (s : TableState) (k : Nat) (v : List Nat) (hInv : Inv s)
    (hlen : v.length < MAX_VALUE_LEN)
    (habs : ∀ i < 2048,
      ¬((s.table i).state = EntryState.occupied ∧ (s.table i).key = k))
    (hroom : countOcc s < 2048) :
    (addRsc s k v).1 = OK ∧ (k, storeVal v) ∈ occPairs (addRsc s k v).2 := by
  obtain ⟨hR1, hRInv, hRseed, hRpairs, hRcount, _⟩ := rehashIfNeeded_spec s hInv
  have hlen' : ¬(MAX_VALUE_LEN ≤ v.length) := by omega
  have habs1 : ∀ i < 2048, ¬(((rehashIfNeeded s).2.table i).state = EntryState.occupied ∧
      ((rehashIfNeeded s).2.table i).key = k) := by
    rintro i hi ⟨hocc, hkey⟩
    have hpair : (k, readVal ((rehashIfNeeded s).2.table i).value) ∈
        occPairs (rehashIfNeeded s).2 :=
      mem_occPairs.mpr ⟨i, hi, hocc, hkey, rfl⟩
    obtain ⟨j, hj, hoccj, hkeyj, _⟩ := mem_occPairs.mp ((hRpairs _ _).mp hpair)
    exact habs j hj ⟨hoccj, hkeyj⟩
  have hroom1 : countOcc (rehashIfNeeded s).2 < 2048 := by rw [hRcount]; exact hroom
  obtain ⟨i0, hi0, hne0⟩ := exists_not_of_countP_lt (rehashIfNeeded s).2.table _ hroom1
  obtain ⟨p, hfind, _, _, _⟩ := findEmptySlot_succeeds habs1 ⟨i0, hi0, hne0⟩
  rw [addRsc_some hlen' hR1 hfind]
  obtain ⟨_, _, _, hPk⟩ := insert_branch_spec hRInv hfind
  exact ⟨rfl, hPk⟩

/-- addRsc on a key that is already present, when no compaction fires:
`findEmptySlot` reports the duplicate and the result is decided by the
`current_count >= RWLOCK_MAX_ENTRIES` heuristic, with the state unchanged. -/
theorem addRsc_dup (s : TableState) (k : Nat) (v : List Nat) (hInv : Inv s)
    (hlen : v.length < MAX_VALUE_LEN)
    (hocc : ∃ j < 2048, (s.table j).state = EntryState.occupied ∧ (s.table j).key = k)
    (hnoreh : needRehash s = false) :
    addRsc s k v = ((if RWLOCK_MAX_ENTRIES ≤ s.current_count
      then NO_SPACE_ERR else DUPLICATE_KEY), s) := by
  have hid : rehashIfNeeded s = (OK, s) := rehashIfNeeded_id (by rw [hnoreh]; simp)
  obtain ⟨j, hj, hoccj, hkeyj⟩ := hocc
  have hfind : findEmptySlot s k (hash s.hash_seed k) = none :=
    findEmptySlot_dup hInv hj hoccj hkeyj
  have hlen' : ¬(MAX_VALUE_LEN ≤ v.length) := by omega
  have := @addRsc_none s k v hlen'
    (by rw [hid]) (by rw [hid]; exact hfind)
  rw [this, hid]

/-! ## Specification of the remaining operations -/

theorem write_value_pairs {s : TableState} {pos : Nat} {v : List Nat}
    (hp : pos < 2048) :
    ∀ a b, a ≠ (s.table pos).key →
      ((a, b) ∈ occPairs (setSlot s pos { s.table pos with value := storeVal v }) ↔
        (a, b) ∈ occPairs s) := by
  intro a b hak
  rw [mem_occPairs_update hp]
  constructor
  · rintro (⟨i, hi, _, h1, h2, h3⟩ | ⟨_, hkey, _⟩)
    · exact mem_occPairs.mpr ⟨i, hi, h1, h2, h3⟩
    · exact absurd hkey.symm hak
  · intro hmem
    obtain ⟨i, hi, h1, h2, h3⟩ := mem_occPairs.mp hmem
    refine Or.inl ⟨i, hi, ?_, h1, h2, h3⟩
    intro hcon
    rw [hcon] at h2
    exact hak h2.symm

theorem updateRsc_long {s : TableState} {k : Nat} {v : List Nat}
    (hlen : MAX_VALUE_LEN ≤ v.length) : updateRsc s k v = (NO_SPACE_ERR, s) := by
  rw [updateRsc, if_pos hlen]

theorem updateRsc_none {s : TableState} {k : Nat} {v : List Nat}
    (hlen : ¬(MAX_VALUE_LEN ≤ v.length))
    (hfind : findEntry s k (hash s.hash_seed k) = none) :
    updateRsc s k v = (NOT_FOUND, s) := by
  rw [updateRsc, if_neg hlen, hfind]

theorem updateRsc_some {s : TableState} {k : Nat} {v : List Nat} {pos : Nat}
    (hlen : ¬(MAX_VALUE_LEN ≤ v.length))
    (hfind : findEntry s k (hash s.hash_seed k) = some pos) :
    updateRsc s k v = (OK, setSlot s pos { s.table pos with value := storeVal v }) := by
  rw [updateRsc, if_neg hlen, hfind]

theorem updateRsc_spec (s : TableState) (k : Nat) (v : List Nat) (hInv : Inv s) :
    Inv (updateRsc s k v).2 ∧
    (updateRsc s k v).2.hash_seed = s.hash_seed ∧
    (∀ a b, a ≠ k → ((a, b) ∈ occPairs (updateRsc s k v).2 ↔ (a, b) ∈ occPairs s)) := by
  by_cases hlen : MAX_VALUE_LEN ≤ v.length
  · rw [updateRsc_long hlen]
    exact ⟨hInv, rfl, fun a b _ => Iff.rfl⟩
  · cases hfind : findEntry s k (hash s.hash_seed k) with
    | none =>
      rw [updateRsc_none hlen hfind]
      exact ⟨hInv, rfl, fun a b _ => Iff.rfl⟩
    | some pos =>
      obtain ⟨hp, hocc, hkey⟩ := findEntryGo_some_sound 2048 _ 0 pos (hash_lt _ _) hfind
      rw [updateRsc_some hlen hfind]
      refine ⟨write_value_inv hInv hp hocc, rfl, ?_⟩
      intro a b hak
      exact write_value_pairs hp a b (by rw [hkey]; exact hak)

theorem upsertRsc_long {s : TableState} {k : Nat} {v : List Nat}
    (hlen : MAX_VALUE_LEN ≤ v.length) : upsertRsc s k v = (NO_SPACE_ERR, s) := by
  rw [upsertRsc, if_pos hlen]

theorem upsertRsc_found {s : TableState} {k : Nat} {v : List Nat} {pos : Nat}
    (hlen : ¬(MAX_VALUE_LEN ≤ v.length))
    (hfind : findEntry s k (hash s.hash_seed k) = some pos) :
    upsertRsc s k v = (OK, setSlot s pos { s.table pos with value := storeVal v }) := by
  rw [upsertRsc, if_neg hlen, hfind]

theorem upsertRsc_insert_none {s : TableState} {k : Nat} {v : List Nat}
    (hlen : ¬(MAX_VALUE_LEN ≤ v.length))
    (hfe : findEntry s k (hash s.hash_seed k) = none)
    (hok : (rehashIfNeeded s).1 = OK)
    (hfind : findEmptySlot (rehashIfNeeded s).2 k (hash s.hash_seed k) = none) :
    upsertRsc s k v = (NO_SPACE_ERR, (rehashIfNeeded s).2) := by
  rw [upsertRsc, if_neg hlen, hfe,
    if_neg (show ¬((rehashIfNeeded s).1 ≠ OK) by rw [hok]; simp), hfind]

theorem upsertRsc_insert_some {s : TableState} {k : Nat} {v : List Nat} {pos : Nat}
    (hlen : ¬(MAX_VALUE_LEN ≤ v.length))
    (hfe : findEntry s k (hash s.hash_seed k) = none)
    (hok : (rehashIfNeeded s).1 = OK)
    (hfind : findEmptySlot (rehashIfNeeded s).2 k (hash s.hash_seed k) = some pos) :
    upsertRsc s k v = (OK, insertWrite (rehashIfNeeded s).2 k v
      (hash s.hash_seed k) pos) := by
  rw [upsertRsc, if_neg hlen, hfe,
    if_neg (show ¬((rehashIfNeeded s).1 ≠ OK) by rw [hok]; simp), hfind]

theorem upsertRsc_spec (s : TableState) (k : Nat) (v : List Nat) (hInv : Inv s) :
    Inv (upsertRsc s k v).2 ∧
    (upsertRsc s k v).2.hash_seed = s.hash_seed ∧
    (∀ a b, a ≠ k → ((a, b) ∈ occPairs (upsertRsc s k v).2 ↔ (a, b) ∈ occPairs s)) := by
  obtain ⟨hR1, hRInv, hRseed, hRpairs, hRcount, _⟩ := rehashIfNeeded_spec s hInv
  by_cases hlen : MAX_VALUE_LEN ≤ v.length
  · rw [upsertRsc_long hlen]
    exact ⟨hInv, rfl, fun a b _ => Iff.rfl⟩
  · cases hfe : findEntry s k (hash s.hash_seed k) with
    | some pos =>
      obtain ⟨hp, hocc, hkey⟩ := findEntryGo_some_sound 2048 _ 0 pos (hash_lt _ _) hfe
      rw [upsertRsc_found hlen hfe]
      refine ⟨write_value_inv hInv hp hocc, rfl, ?_⟩
      intro a b hak
      exact write_value_pairs hp a b (by rw [hkey]; exact hak)
    | none =>
      have hhash : hash s.hash_seed k = hash (rehashIfNeeded s).2.hash_seed k := by
        rw [hRseed]
      cases hfind : findEmptySlot (rehashIfNeeded s).2 k (hash s.hash_seed k) with
      | none =>
        rw [upsertRsc_insert_none hlen hfe hR1 hfind]
        exact ⟨hRInv, hRseed, fun a b _ => hRpairs a b⟩
      | some pos =>
        rw [upsertRsc_insert_some hlen hfe hR1 hfind]
        rw [hhash] at hfind ⊢
        obtain ⟨hI, hS, hP, _⟩ := insert_branch_spec hRInv hfind
        exact ⟨hI, hS.trans hRseed, fun a b hab => (hP a b hab).trans (hRpairs a b)⟩

theorem removeRsc_notfound {s : TableState} {k : Nat}
    (hfind : findEntry s k (hash s.hash_seed k) = none) :
    removeRsc s k = (NOT_FOUND, s) := by
  rw [removeRsc, hfind]

theorem removeRsc_some {s : TableState} {k : Nat} {pos : Nat}
    (hfind : findEntry s k (hash s.hash_seed k) = some pos) :
    removeRsc s k = (OK,
      { setSlot s pos { s.table pos with state := EntryState.deleted } with
          current_count := s.current_count - 1,
          deleted_count := s.deleted_count + 1 }) := by
  rw [removeRsc, hfind]
  rfl

/-- Tombstoning an occupied slot with the counter updates of `removeRsc`
preserves the invariant. -/
theorem Inv_remove {s : TableState} {pos : Nat} (hInv : Inv s) (hp : pos < 2048)
    (hocc : (s.table pos).state = EntryState.occupied) :
    Inv { setSlot s pos { s.table pos with state := EntryState.deleted } with
      current_count := s.current_count - 1,
      deleted_count := s.deleted_count + 1 } := by
  set e : Entry := { s.table pos with state := EntryState.deleted } with he
  set s' : TableState := { setSlot s pos e with
    current_count := s.current_count - 1, deleted_count := s.deleted_count + 1 }
    with hs'
  have htabs : ∀ i, i ≠ pos → s'.table i = s.table i := by
    intro i hip
    exact setSlot_table_noteq s pos e hip
  have htabp : s'.table pos = e := setSlot_table_same s pos e
  have hoccCount := countP_update s.table pos e
    (fun x => x.state = EntryState.occupied) hp
  have hdelCount := countP_update s.table pos e
    (fun x => x.state = EntryState.deleted) hp
  have henotocc : ¬(e.state = EntryState.occupied) := by
    rw [he]
    intro hcon
    cases hcon
  have hedel : e.state = EntryState.deleted := by rw [he]
  have hpnotdel : ¬((s.table pos).state = EntryState.deleted) := by
    rw [hocc]
    intro hcon
    cases hcon
  rw [if_pos hocc, if_neg henotocc] at hoccCount
  rw [if_neg hpnotdel, if_pos hedel] at hdelCount
  have hcO : countOcc s' = countP (Function.update s.table pos e)
      (fun x => x.state = EntryState.occupied) := rfl
  have hcD : countDel s' = countP (Function.update s.table pos e)
      (fun x => x.state = EntryState.deleted) := rfl
  constructor
  · show s.current_count - 1 = _
    rw [hInv.occ_count, hcO]
    unfold countOcc
    omega
  · show s.deleted_count + 1 = _
    rw [hInv.del_count, hcD]
    unfold countDel
    omega
  · intro i hi j hj h1 h2 h3
    have hip : i ≠ pos := by
      intro hcon
      rw [hcon, htabp] at h1
      exact henotocc h1
    have hjp : j ≠ pos := by
      intro hcon
      rw [hcon, htabp] at h2
      exact henotocc h2
    rw [htabs i hip] at h1 h3
    rw [htabs j hjp] at h2 h3
    exact hInv.key_uniq i hi j hj h1 h2 h3
  · intro i hi h1
    have hip : i ≠ pos := by
      intro hcon
      rw [hcon, htabp] at h1
      exact henotocc h1
    rw [htabs i hip] at h1 ⊢
    obtain ⟨n, hn, hpn, hpa⟩ := hInv.probe_reach i hi h1
    refine ⟨n, hn, hpn, ?_⟩
    intro u hu
    by_cases hq : probePos s.hash_seed (s.table i).key u = pos
    · rw [show s'.hash_seed = s.hash_seed from rfl, hq, htabp, hedel]
      intro hcon
      cases hcon
    · rw [show s'.hash_seed = s.hash_seed from rfl, htabs _ hq]
      exact hpa u hu
  · intro i hi h1
    have hip : i ≠ pos := by
      intro hcon
      rw [hcon, htabp] at h1
      exact henotocc h1
    rw [htabs i hip] at h1 ⊢
    exact hInv.val_ok i hi h1

theorem removeRsc_spec (s : TableState) (k : Nat) (hInv : Inv s) :
    Inv (removeRsc s k).2 ∧
    (removeRsc s k).2.hash_seed = s.hash_seed ∧
    (∀ a b, a ≠ k → ((a, b) ∈ occPairs (removeRsc s k).2 ↔ (a, b) ∈ occPairs s)) := by
  cases hfind : findEntry s k (hash s.hash_seed k) with
  | none =>
    rw [removeRsc_notfound hfind]
    exact ⟨hInv, rfl, fun a b _ => Iff.rfl⟩
  | some pos =>
    obtain ⟨hp, hocc, hkey⟩ := findEntryGo_some_sound 2048 _ 0 pos (hash_lt _ _) hfind
    rw [removeRsc_some hfind]
    refine ⟨Inv_remove hInv hp hocc, rfl, ?_⟩
    intro a b hak
    have hcongr : occPairs { setSlot s pos { s.table pos with
        state := EntryState.deleted } with
          current_count := s.current_count - 1,
          deleted_count := s.deleted_count + 1 } =
        occPairs (setSlot s pos { s.table pos with state := EntryState.deleted }) :=
      occPairs_congr rfl
    rw [hcongr, mem_occPairs_update hp]
    constructor
    · rintro (⟨i, hi, _, h1, h2, h3⟩ | ⟨hstate, _, _⟩)
      · exact mem_occPairs.mpr ⟨i, hi, h1, h2, h3⟩
      · cases hstate
    · intro hmem
      obtain ⟨i, hi, h1, h2, h3⟩ := mem_occPairs.mp hmem
      refine Or.inl ⟨i, hi, ?_, h1, h2, h3⟩
      intro hcon
      rw [hcon] at h2
      rw [hkey] at h2
      exact hak h2.symm

theorem batchUpdateGo_spec (entries : List (Nat × List Nat)) :
    ∀ (c : Int) (s : TableState), Inv s →
      Inv (batchUpdateGo entries c s).2 ∧
      (batchUpdateGo entries c s).2.hash_seed = s.hash_seed ∧
      (∀ a b, (∀ e ∈ entries, e.1 ≠ a) →
        ((a, b) ∈ occPairs (batchUpdateGo entries c s).2 ↔ (a, b) ∈ occPairs s)) := by
  induction entries with
  | nil =>
    intro c s hInv
    exact ⟨hInv, rfl, fun a b _ => Iff.rfl⟩
  | cons e rest ih =>
    obtain ⟨k, v⟩ := e
    intro c s hInv
    rw [batchUpdateGo]
    by_cases hlen : MAX_VALUE_LEN ≤ v.length
    · rw [if_pos hlen]
      obtain ⟨h1, h2, h3⟩ := ih c s hInv
      exact ⟨h1, h2, fun a b hne =>
        h3 a b (fun e he => hne e (List.mem_cons_of_mem _ he))⟩
    · rw [if_neg hlen]
      cases hfind : findEntry s k (hash s.hash_seed k) with
      | none =>
        obtain ⟨h1, h2, h3⟩ := ih c s hInv
        exact ⟨h1, h2, fun a b hne =>
          h3 a b (fun e he => hne e (List.mem_cons_of_mem _ he))⟩
      | some pos =>
        obtain ⟨hp, hocc, hkey⟩ := findEntryGo_some_sound 2048 _ 0 pos (hash_lt _ _) hfind
        set s1 := setSlot s pos { s.table pos with value := storeVal v } with hs1
        obtain ⟨h1, h2, h3⟩ := ih (c + 1) s1 (write_value_inv hInv hp hocc)
        refine ⟨h1, h2.trans rfl, ?_⟩
        intro a b hne
        rw [h3 a b (fun e he => hne e (List.mem_cons_of_mem _ he))]
        exact write_value_pairs hp a b
          (by rw [hkey]; exact Ne.symm (hne (k, v) (List.mem_cons_self _ _)))

theorem batchUpdateRsc_spec (s : TableState) (entries : List (Nat × List Nat))
    (hInv : Inv s) :
    Inv (batchUpdateRsc s entries).2 ∧
    (batchUpdateRsc s entries).2.hash_seed = s.hash_seed ∧
    (∀ a b, (∀ e ∈ entries, e.1 ≠ a) →
      ((a, b) ∈ occPairs (batchUpdateRsc s entries).2 ↔ (a, b) ∈ occPairs s)) :=
  batchUpdateGo_spec entries 0 s hInv

theorem Inv_cleared (s : TableState) :
    Inv { clearSlots s with current_count := 0, deleted_count := 0 } := by
  constructor
  · show (0 : Int) = _
    have : countOcc { clearSlots s with current_count := 0, deleted_count := 0 } = 0 := by
      unfold countOcc countP
      rw [Finset.filter_false_of_mem, Finset.card_empty]
      intro i _
      simp [clearSlots_state s i]
    rw [this]
    rfl
  · show (0 : Int) = _
    have : countDel { clearSlots s with current_count := 0, deleted_count := 0 } = 0 := by
      unfold countDel countP
      rw [Finset.filter_false_of_mem, Finset.card_empty]
      intro i _
      simp [clearSlots_state s i]
    rw [this]
    rfl
  · intro i _ j _ h1
    exact absurd h1 (by rw [clearSlots_state s i]; intro hcon; cases hcon)
  · intro i _ h1
    exact absurd h1 (by rw [clearSlots_state s i]; intro hcon; cases hcon)
  · intro i _ h1
    exact absurd h1 (by rw [clearSlots_state s i]; intro hcon; cases hcon)

theorem clearRsc_spec (s : TableState) : Inv (clearRsc s).2 :=
  Inv_cleared s

/-! ## getRsc and isContain -/

theorem getRsc_mem {s : TableState} {k : Nat} {w : List Nat} (hInv : Inv s)
    (hmem : (k, w) ∈ occPairs s) : getRsc s k = w := by
  obtain ⟨j, hj, hocc, hkey, hval⟩ := mem_occPairs.mp hmem
  rw [getRsc, findEntry_finds hInv hj hocc hkey]
  exact hval

theorem getRsc_absent {s : TableState} {k : Nat}
    (habs : ∀ i < 2048,
      ¬((s.table i).state = EntryState.occupied ∧ (s.table i).key = k)) :
    getRsc s k = [] := by
  rw [getRsc, findEntry_eq_none habs]

theorem isContain_true {s : TableState} {k j : Nat} (hInv : Inv s)
    (hj : j < 2048) (hocc : (s.table j).state = EntryState.occupied)
    (hkey : (s.table j).key = k) : isContain s k = true := by
  rw [isContain, findEntry_finds hInv hj hocc hkey]
  rfl

theorem isContain_false {s : TableState} {k : Nat}
    (habs : ∀ i < 2048,
      ¬((s.table i).state = EntryState.occupied ∧ (s.table i).key = k)) :
    isContain s k = false := by
  rw [isContain, findEntry_eq_none habs]
  rfl

/-! ## Every reachable state satisfies the invariant -/

theorem Inv_applyOp (s : TableState) (op : Op) (hInv : Inv s) :
    Inv (applyOp s op) := by
  cases op with
  | add k v => exact (addRsc_spec s k v hInv).1
  | update k v => exact (updateRsc_spec s k v hInv).1
  | upsert k v => exact (upsertRsc_spec s k v hInv).1
  | remove k => exact (removeRsc_spec s k hInv).1
  | clear => exact clearRsc_spec s
  | batchUpdate es => exact (batchUpdateRsc_spec s es hInv).1

theorem Inv_runOps (s : TableState) (ops : List Op) (hInv : Inv s) :
    Inv (runOps s ops) := by
  induction ops generalizing s with
  | nil => exact hInv
  | cons op rest ih => exact ih (applyOp s op) (Inv_applyOp s op hInv)

theorem Reachable_Inv {seed : Nat} {s : TableState} (h : Reachable seed s) :
    Inv s := by
  obtain ⟨ops, hops⟩ := h
  rw [← hops]
  exact Inv_runOps (initState seed) ops (Inv_initState seed)

/-! ## Operations that do not touch a given key -/

/-- opAvoids characterizes the operations that neither overwrite nor delete
the key `k`: any operation on a different key, or a batch update none of
whose entries has key `k`.  `clear` always touches every key. -/
def opAvoids (k : Nat) : Op → Prop
  | Op.add a _ => a ≠ k
  | Op.update a _ => a ≠ k
  | Op.upsert a _ => a ≠ k
  | Op.remove a => a ≠ k
  | Op.clear => False
  | Op.batchUpdate es => ∀ e ∈ es, e.1 ≠ k

theorem applyOp_avoids_pairs {s : TableState} {k : Nat} (op : Op) (hInv : Inv s)
    (hav : opAvoids k op) (b : List Nat) :
    (k, b) ∈ occPairs (applyOp s op) ↔ (k, b) ∈ occPairs s := by
  cases op with
  | add a v => exact (addRsc_spec s a v hInv).2.2 k b (Ne.symm hav)
  | update a v => exact (updateRsc_spec s a v hInv).2.2 k b (Ne.symm hav)
  | upsert a v => exact (upsertRsc_spec s a v hInv).2.2 k b (Ne.symm hav)
  | remove a => exact (removeRsc_spec s a hInv).2.2 k b (Ne.symm hav)
  | clear => cases hav
  | batchUpdate es => exact (batchUpdateRsc_spec s es hInv).2.2 k b hav

theorem runOps_avoids_pairs {k : Nat} (ops : List Op) :
    ∀ (s : TableState), Inv s → (∀ op ∈ ops, opAvoids k op) →
      ∀ b, ((k, b) ∈ occPairs (runOps s ops) ↔ (k, b) ∈ occPairs s) := by
  induction ops with
  | nil => intro s _ _ b; exact Iff.rfl
  | cons op rest ih =>
    intro s hInv hav b
    have h1 := applyOp_avoids_pairs op hInv (hav op (List.mem_cons_self _ _)) b
    have h2 := ih (applyOp s op) (Inv_applyOp s op hInv)
      (fun o ho => hav o (List.mem_cons_of_mem _ ho)) b
    exact h2.trans h1

/-- When `addRsc` reports `OK`, it has inserted the NUL-truncated value for
the key. -/
theorem addRsc_ok_pair {s : TableState} {k : Nat} {v : List Nat} (hInv : Inv s)
    (hok : (addRsc s k v).1 = OK) :
    (k, storeVal v) ∈ occPairs (addRsc s k v).2 := by
  obtain ⟨hR1, hRInv, _, _, _, _⟩ := rehashIfNeeded_spec s hInv
  by_cases hlen : MAX_VALUE_LEN ≤ v.length
  · rw [addRsc_long hlen] at hok
    cases hok
  · cases hfind : findEmptySlot (rehashIfNeeded s).2 k
        (hash (rehashIfNeeded s).2.hash_seed k) with
    | none =>
      rw [addRsc_none hlen hR1 hfind] at hok
      by_cases hfull : RWLOCK_MAX_ENTRIES ≤ (rehashIfNeeded s).2.current_count
      · rw [if_pos hfull] at hok
        cases hok
      · rw [if_neg hfull] at hok
        cases hok
    | some pos =>
      rw [addRsc_some hlen hR1 hfind]
      exact (insert_branch_spec hRInv hfind).2.2.2

/-! ## First-probe-step computations, for concrete states -/

theorem findEmptySlot_first_empty {s : TableState} {k : Nat}
    (hemp : (s.table (hash s.hash_seed k)).state = EntryState.empty) :
    findEmptySlot s k (hash s.hash_seed k) = some (hash s.hash_seed k) := by
  have h2048 : RWLOCK_HASH_TABLE_SIZE = 2047 + 1 := rfl
  rw [findEmptySlot, h2048, findEmptyGo, if_pos hemp]
  rfl

theorem findEmptySlot_first_match {s : TableState} {k : Nat}
    (hocc : (s.table (hash s.hash_seed k)).state = EntryState.occupied)
    (hkey : (s.table (hash s.hash_seed k)).key = k) :
    findEmptySlot s k (hash s.hash_seed k) = none := by
  have h2048 : RWLOCK_HASH_TABLE_SIZE = 2047 + 1 := rfl
  rw [findEmptySlot, h2048, findEmptyGo,
    if_neg (show ¬((s.table (hash s.hash_seed k)).state = EntryState.empty) by
      rw [hocc]; intro hcon; cases hcon),
    if_pos ⟨hocc, hkey⟩]

theorem findEntry_first_match {s : TableState} {k : Nat}
    (hocc : (s.table (hash s.hash_seed k)).state = EntryState.occupied)
    (hkey : (s.table (hash s.hash_seed k)).key = k) :
    findEntry s k (hash s.hash_seed k) = some (hash s.hash_seed k) := by
  have h2048 : RWLOCK_HASH_TABLE_SIZE = 2047 + 1 := rfl
  rw [findEntry, h2048, findEntryGo,
    if_neg (show ¬((s.table (hash s.hash_seed k)).state = EntryState.empty) by
      rw [hocc]; intro hcon; cases hcon),
    if_pos ⟨hocc, hkey⟩]

/-! ## Bulk insertion with consecutive primary-hash positions

These definitions run `addRsc` over a whole list of keys with a fixed value,
recording whether every call returned `OK`.  They drive the concrete
executions used to compare the code against the documented capacity bound. -/

def addSeq (v : List Nat) : TableState → List Nat → TableState
  | s, [] => s
  | s, k :: rest => addSeq v (addRsc s k v).2 rest

def addSeqAllOk (v : List Nat) : TableState → List Nat → Bool
  | _, [] => true
  | s, k :: rest => ((addRsc s k v).1 == OK) && addSeqAllOk v (addRsc s k v).2 rest

theorem addSeq_runOps (v : List Nat) : ∀ (ks : List Nat) (s : TableState),
    addSeq v s ks = runOps s (ks.map (fun k => Op.add k v)) := by
  intro ks
  induction ks with
  | nil => intro s; rfl
  | cons k rest ih =>
    intro s
    rw [addSeq, List.map_cons]
    show addSeq v (addRsc s k v).2 rest = runOps (applyOp s (Op.add k v)) (rest.map _)
    exact ih (addRsc s k v).2

/-- Inserting keys whose primary hash positions are exactly the consecutive
slots `m, m+1, …` into a table whose occupied slots are exactly `0, …, m-1`
(with no tombstones) makes every `addRsc` return `OK` and fills the next
slots in order — as long as at most 1537 slots get filled in total, so that
the `> 1536` rehash trigger never fires. -/
theorem addSeq_block (v : List Nat) (hv : v.length < MAX_VALUE_LEN) :
    ∀ (ks : List Nat) (s : TableState) (m : Nat),
      (∀ p, (s.table p).state = EntryState.occupied ↔ p < m) →
      (∀ p, (s.table p).state ≠ EntryState.deleted) →
      s.current_count = (m : Int) →
      s.deleted_count = 0 →
      ks.map (hash s.hash_seed) = List.range' m ks.length 1 →
      m + ks.length ≤ 1537 →
      addSeqAllOk v s ks = true ∧
      (addSeq v s ks).current_count = ((m + ks.length : Nat) : Int) ∧
      (addSeq v s ks).deleted_count = 0 ∧
      (addSeq v s ks).hash_seed = s.hash_seed ∧
      (∀ p, ((addSeq v s ks).table p).state = EntryState.occupied ↔ p < m + ks.length) ∧
      (∀ p, ((addSeq v s ks).table p).state ≠ EntryState.deleted) ∧
      (∀ p, p < m → (addSeq v s ks).table p = s.table p) ∧
      (∀ j, (hj : j < ks.length) → (addSeq v s ks).table (m + j) =
        ⟨ks.get ⟨j, hj⟩, storeVal v, EntryState.occupied, m + j⟩) := by
  intro ks
  induction ks with
  | nil =>
    intro s m hocc hnodel hcc hdc _ _
    refine ⟨rfl, by simpa using hcc, hdc, rfl, by simpa using hocc, hnodel,
      fun p _ => rfl, ?_⟩
    intro j hj
    exact absurd hj (Nat.not_lt_zero j)
  | cons k rest ih =>
    intro s m hocc hnodel hcc hdc hmap hbound
    have hlen' : ¬(MAX_VALUE_LEN ≤ v.length) := by omega
    have hrange : List.range' m (k :: rest).length 1 =
        m :: List.range' (m + 1) rest.length 1 := rfl
    rw [List.map_cons, hrange] at hmap
    have hhk : hash s.hash_seed k = m := (List.cons_eq_cons.mp hmap).1
    have hmaprest : rest.map (hash s.hash_seed) = List.range' (m + 1) rest.length 1 :=
      (List.cons_eq_cons.mp hmap).2
    have hbound' : m + rest.length + 1 ≤ 1537 := by
      simp only [List.length_cons] at hbound
      omega
    have hnr : needRehash s = false := by
      simp only [needRehash, hcc, hdc, RWLOCK_MAX_ENTRIES, decide_eq_false_iff_not,
        not_lt]
      omega
    have hid : rehashIfNeeded s = (OK, s) := rehashIfNeeded_id (by rw [hnr]; simp)
    have hempm : (s.table (hash s.hash_seed k)).state = EntryState.empty := by
      rw [hhk]
      cases hstate : (s.table m).state with
      | empty => rfl
      | occupied =>
        have := (hocc m).mp hstate
        omega
      | deleted => exact absurd hstate (hnodel m)
    have hfind : findEmptySlot s k (hash s.hash_seed k) = some (hash s.hash_seed k) :=
      findEmptySlot_first_empty hempm
    have haddeq := @addRsc_some s k v (hash s.hash_seed k)
      hlen' (by rw [hid]) (by rw [hid]; exact hfind)
    rw [hid] at haddeq
    have haddeq' : addRsc s k v = (OK, insertWrite s k v m m) := by
      rw [haddeq, hhk]
    set s' : TableState := insertWrite s k v m m with hs'
    have hs'tab : s'.table = Function.update s.table m
        ⟨k, storeVal v, EntryState.occupied, m⟩ := insertWrite_table s k v m m
    have hs'seed : s'.hash_seed = s.hash_seed := insertWrite_seed s k v m m
    have hs'cc : s'.current_count = ((m + 1 : Nat) : Int) := by
      rw [insertWrite_current, hcc]
      push_cast
      ring
    have hmnotdel : ¬((s.table m).state = EntryState.deleted) := hnodel m
    have hs'dc : s'.deleted_count = 0 := by
      rw [insertWrite_deleted, if_neg hmnotdel, hdc]
      ring
    have hs'occ : ∀ p, (s'.table p).state = EntryState.occupied ↔ p < m + 1 := by
      intro p
      by_cases hpm : p = m
      · rw [hs'tab, hpm, Function.update_same]
        constructor
        · intro _
          omega
        · intro _
          rfl
      · rw [hs'tab, Function.update_noteq hpm]
        rw [hocc p]
        omega
    have hs'nodel : ∀ p, (s'.table p).state ≠ EntryState.deleted := by
      intro p
      by_cases hpm : p = m
      · rw [hs'tab, hpm, Function.update_same]
        intro hcon
        cases hcon
      · rw [hs'tab, Function.update_noteq hpm]
        exact hnodel p
    obtain ⟨ih1, ih2, ih3, ih4, ih5, ih6, ih7, ih8⟩ := ih s' (m + 1) hs'occ hs'nodel
      hs'cc hs'dc (by rw [hs'seed]; exact hmaprest) (by omega)
    have hrun : addSeq v s (k :: rest) = addSeq v s' rest := by
      rw [addSeq, haddeq']
    have hallok : addSeqAllOk v s (k :: rest) = true := by
      rw [addSeqAllOk, haddeq']
      simp only [ih1]
      rfl
    have hlenc : (k :: rest).length = rest.length + 1 := rfl
    refine ⟨hallok, ?_, ?_, ?_, ?_, ?_, ?_, ?_⟩
    · rw [hrun, ih2, hlenc]
      congr 1
      omega
    · rw [hrun]
      exact ih3
    · rw [hrun, ih4, hs'seed]
    · intro p
      rw [hrun, ih5 p, hlenc]
      omega
    · intro p
      rw [hrun]
      exact ih6 p
    · intro p hp
      rw [hrun, ih7 p (by omega), hs'tab, Function.update_noteq (by omega)]
    · intro j hj
      rw [hrun]
      cases j with
      | zero =>
        have h1 : m + 0 < m + 1 := by omega
        rw [ih7 (m + 0) h1]
        have : m + 0 = m := by omega
        rw [this, hs'tab, Function.update_same]
        rfl
      | succ j' =>
        have hj' : j' < rest.length := by
          rw [hlenc] at hj
          omega
        have h2 := ih8 j' hj'
        have harith : m + (j' + 1) = m + 1 + j' := by omega
        rw [harith, h2]
        rfl

/-! ## Concrete key material

With seed 0, the keys below have primary hash positions exactly
0, 1, …, 1536 in order (checked by `decide` chunk by chunk), so a run of
`addRsc` over them exercises the capacity behavior of the table. -/

def c2k0 : List Nat := [0, 878, 87, 978, 101, 923, 4021, 1865, 2700, 1497, 1542, 1234, 123, 1696, 34, 1015, 3980, 2987, 2994, 758, 247, 3053, 2560, 1675, 246, 609, 944, 308, 190, 1021, 3243, 143, 2075, 4679, 1662, 2018, 2224, 2826, 1339, 83, 494, 8707, 88, 2872, 1022, 2661, 445, 1056, 686, 3024, 4876, 6293, 604, 61, 1506, 462, 8923, 6721, 5906, 715, 241, 481, 1027, 133, 7030, 218, 508, 279, 394, 15, 3180, 2034, 1261, 895, 700, 2119, 1399, 1129, 166, 649, 2531, 1952, 7531, 4266, 5722, 1482, 1529, 1152, 1636, 2988, 234, 194, 1526, 1993, 3841, 2274, 5259, 1504, 717, 1059, 4790, 2523, 3842, 1687, 5325, 72, 1515, 1036, 317, 3192, 1127, 110, 2291, 2829, 386, 396, 1173, 5804, 8806, 4893, 482, 467, 2586, 1944, 2054, 410, 769, 1658, 1982, 140, 73, 1450, 901, 2607, 1884, 3424, 64, 2187, 288, 1116, 1917, 156, 1465, 460, 13811, 3754, 96, 1790, 726, 419, 170, 1712, 3963, 623, 1176, 461, 875, 4378, 2544, 2262, 1183, 6155, 3904, 306, 4143, 397, 69, 2350, 2858, 1499, 2964, 8138, 3167, 367, 3417, 1633, 1041, 822, 6135, 712, 4870, 468, 1301, 1, 870, 1634, 4140, 4074, 1238, 66, 3309, 1970, 2476, 4667, 368, 263, 3444, 806, 4038, 1140, 1470, 164, 814, 7003, 868, 915, 4122, 2818, 767, 3228, 1030, 1536, 1638, 3844, 1897, 374, 1734, 5176, 3753, 2634, 6152, 2114, 3937, 1630, 433, 1296, 8605, 1700, 1243, 269, 723, 352, 1817, 1165, 2418, 321, 3211, 5290, 4296, 997, 119, 6567, 934, 505, 2221, 257, 2590, 2085, 490, 523, 2999, 226, 1538, 1034, 1829, 6207]

def c2k1 : List Nat := [829, 7630, 1880, 406, 1391, 3239, 660, 7334, 1802, 7977, 1312, 3007, 344, 1065, 553, 4123, 5878, 1578, 304, 9, 5810, 698, 363, 943, 4579, 46, 4236, 1079, 2592, 2133, 6708, 1792, 440, 20, 1889, 274, 192, 457, 302, 1298, 250, 2032, 35, 1011, 653, 2725, 1781, 1523, 2439, 1371, 271, 2360, 1997, 3630, 22, 922, 813, 630, 454, 5270, 1143, 3020, 1825, 491, 2413, 1607, 826, 4468, 2596, 79, 1114, 4523, 3720, 647, 541, 478, 5141, 138, 2388, 4700, 1859, 54, 2998, 52, 1667, 2384, 59, 7647, 409, 3791, 76, 31, 2850, 834, 4363, 256, 1597, 6305, 2550, 1131, 1241, 21, 512, 970, 1444, 884, 1866, 2432, 4603, 198, 2102, 6652, 5926, 1172, 506, 2083, 9961, 489, 105, 1814, 2120, 1278, 837, 2108, 727, 3530, 2071, 974, 1158, 872, 3615, 3481, 4934, 5453, 3742, 2769, 1808, 2992, 4217, 2610, 610, 2918, 8172, 748, 335, 207, 1306, 977, 5989, 1049, 4089, 1111, 2513, 316, 585, 2398, 1761, 26, 3890, 292, 1840, 626, 3176, 2517, 1159, 850, 3730, 1023, 141, 3419, 3592, 1478, 1599, 608, 681, 65, 4557, 1509, 5969, 2353, 4116, 2235, 387, 1812, 925, 2282, 835, 215, 5318, 186, 1085, 2995, 968, 2484, 43, 535, 1217, 7971, 3223, 3585, 382, 1367, 3151, 1377, 1446, 986, 3452, 4145, 407, 993, 1673, 1205, 3515, 3650, 5689, 1316, 3363, 309, 99, 106, 104, 159, 2524, 1530, 184, 3031, 2934, 1051, 5507, 4285, 1010, 456, 8205, 1882, 1053, 1838, 4274, 289, 621, 24, 2793, 3663, 3026, 954, 3931, 2116, 2467, 753, 240, 500, 2666, 393, 827, 2767, 2722, 1759]

def c2k2 : List Nat := [286, 4826, 3511, 1641, 1786, 1115, 2669, 812, 4147, 1582, 6986, 2605, 1511, 223, 1562, 1546, 1655, 2951, 1839, 4051, 1033, 3077, 576, 3573, 48, 2789, 515, 1031, 1106, 395, 4094, 1427, 3369, 453, 209, 202, 778, 1811, 268, 412, 1778, 343, 629, 2834, 3648, 1118, 80, 1886, 551, 841, 417, 10109, 103, 1789, 5332, 2158, 1721, 1139, 684, 906, 549, 4762, 473, 2305, 880, 2277, 780, 40, 2770, 465, 548, 1350, 1323, 443, 2611, 3704, 1125, 8776, 678, 1484, 4442, 236, 7714, 3666, 70, 3463, 167, 1039, 525, 9425, 1567, 797, 1071, 1016, 1493, 3679, 3942, 2941, 459, 484, 3415, 172, 9100, 1570, 677, 613, 47, 6643, 1250, 1676, 1177, 840, 634, 791, 774, 1133, 1764, 1440, 7427, 125, 3317, 533, 86, 3495, 1262, 3195, 2670, 1939, 267, 2741, 1005, 333, 3899, 4, 1107, 1332, 3225, 356, 1950, 1619, 618, 1910, 1333, 2041, 590, 2233, 4472, 92, 55, 1082, 1474, 1953, 1410, 606, 3329, 173, 3728, 4776, 4039, 2511, 3308, 3718, 1938, 4509, 937, 950, 1731, 127, 642, 739, 3668, 3885, 350, 1923, 513, 5060, 2723, 4014, 135, 2101, 573, 3496, 1746, 62, 2750, 1348, 10582, 6395, 458, 177, 1617, 2739, 2250, 1076, 115, 782, 1455, 3331, 3218, 281, 2482, 1372, 3699, 1351, 2367, 3073, 690, 1913, 2070, 1885, 2196, 980, 2377, 1448, 775, 2304, 2255, 208, 600, 107, 891, 2628, 1601, 2485, 145, 3770, 2351, 556, 11711, 5755, 5439, 5792, 1196, 89, 1743, 2172, 948, 817, 531, 311, 4240, 278, 2805, 734, 9221, 4294, 568, 3476, 163, 4734, 2507, 1703, 1908, 5756, 1220, 206]

def c2k3 : List Nat := [436, 3453, 3510, 2431, 1770, 695, 2, 510, 560, 102, 1821, 488, 3969, 3030, 1292, 1257, 1228, 2487, 2206, 636, 2298, 768, 521, 18, 3019, 3010, 1652, 545, 401, 628, 1498, 147, 670, 298, 414, 2419, 2296, 332, 7513, 1954, 1679, 1305, 2680, 1401, 1089, 237, 1112, 920, 312, 3775, 1389, 1420, 1512, 58, 1762, 2626, 158, 534, 1341, 6862, 5201, 1216, 667, 3490, 808, 1271, 1750, 1252, 786, 81, 640, 5249, 372, 291, 2352, 328, 914, 5397, 1589, 231, 554, 426, 5384, 960, 3658, 4070, 359, 1640, 818, 8891, 169, 579, 212, 2830, 130, 2246, 1520, 95, 217, 219, 3820, 361, 5395, 11800, 900, 150, 673, 1045, 1551, 4096, 346, 1921, 1347, 3276, 324, 3021, 1265, 1539, 1946, 887, 4391, 5531, 1819, 7111, 682, 2176, 2892, 4085, 1141, 53, 862, 6191, 85, 137, 227, 2743, 49, 2105, 883, 2127, 3236, 323, 1460, 5533, 6739, 994, 583, 310, 340, 327, 888, 2754, 41, 2006, 9466, 633, 1744, 4813, 846, 2405, 1423, 1540, 874, 1707, 526, 1148, 1554, 2410, 1429, 11789, 187, 3034, 789, 9254, 2415, 2632, 2239, 2675, 4027, 847, 749, 2390, 1958, 1469, 733, 1109, 1181, 6164, 16, 2168, 2122, 1378, 4473, 2644, 2465, 2426, 5162, 2040, 199, 2301, 855, 1050, 270, 4688, 3828, 5, 1574, 7345, 752, 2286, 319, 1768, 2800, 5087, 148, 1160, 216, 129, 578, 9251, 1001, 542, 3856, 499, 2985, 1961, 3287, 303, 7368, 1472, 562, 830, 910, 276, 961, 985, 949, 1553, 225, 422, 354, 14, 2374, 4779, 5121, 152, 996, 487, 1025, 1621, 2014, 331, 2010, 392, 1394, 931]

def c2k4 : List Nat := [750, 598, 602, 1379, 3883, 242, 2162, 360, 674, 379, 1893, 1260, 294, 391, 680, 1705, 1047, 1852, 550, 5688, 1326, 44, 511, 1871, 67, 766, 625, 3182, 3563, 909, 6227, 757, 109, 4916, 197, 1017, 3395, 12195, 2110, 3, 5530, 342, 669, 2556, 1462, 117, 763, 1906, 2603, 3821, 1527, 3512, 1979, 3868, 5128, 248, 2533, 992, 1302, 2594, 2495, 972, 3115, 2137, 1719, 3089, 301, 6715, 503, 418, 1032, 1285, 370, 5898, 3504, 2451, 536, 4270, 2697, 180, 1122, 1711, 3017, 182, 171, 2792, 1276, 1894, 892, 1108, 4732, 731, 252, 902, 697, 561, 1102, 1659, 2141, 2019, 555, 7537, 434, 10560, 1424, 5545, 1384, 2152, 1507, 1787, 4257, 815, 189, 607, 5243, 176, 3652, 57, 2638, 3590, 795, 709, 2801, 3388, 1194, 183, 517, 3428, 362, 724, 474, 1693, 5489, 3662, 3756, 149, 3989, 3203, 2783, 663, 23, 566, 1651, 6434, 10, 377, 285, 2583, 3016, 1334, 2247, 2166, 1983, 1180, 1097, 635, 4288, 7816, 365, 694, 2976, 413, 1964, 2148, 1105, 7923, 5622, 3959, 1690, 2275, 168, 1998, 334, 1694, 134, 438, 737, 592, 2057, 1390, 2222, 4281, 1020, 2428, 2758, 253, 4208, 165, 639, 1213, 869, 3723, 3118, 251, 688, 959, 118, 337, 732, 2175, 452, 3079, 2678, 3589, 7615, 1199, 6588, 714, 265, 3540, 425, 632, 416, 4214, 1330, 6385, 4905, 318, 11677, 287, 3249, 1717, 885, 1680, 28, 705, 2052, 1431, 2629, 3412, 1135, 1035, 4462, 282, 100, 658, 429, 1124, 2341, 765, 5277, 8924, 3669, 228, 941, 1239, 2663, 2873, 131, 1284, 1058, 644, 3360, 437, 3878, 2003]

def c2k5 : List Nat := [1364, 4619, 2026, 2312, 9774, 2546, 3427, 666, 6, 1454, 871, 8, 427, 1695, 1247, 3435, 1359, 1971, 1314, 14317, 19, 1417, 7110, 2266, 1494, 1236, 3557, 1202, 3706, 1487, 3507, 665, 2481, 84, 273, 2667, 2139, 1009, 973, 339, 4795, 1980, 2164, 1361, 3583, 114, 3616, 1070, 3187, 793, 336, 1212, 3888, 2354, 683, 3631, 856, 2242, 882, 3037, 94, 2866, 631, 2791, 671, 3327, 4325, 953, 656, 772, 527, 584, 295, 1874, 2660, 2774, 5767, 389, 254, 703, 747, 988, 2308, 5701, 615, 524, 1948, 2599, 7103, 432, 863, 7183, 42, 1026, 373, 5735, 538, 3808, 466, 2283, 876, 3143, 1627, 345, 1189, 518, 877, 1150, 2103, 3492, 3995, 124, 358, 2037, 2223, 12, 3577, 2930, 3738, 2622, 444, 4233, 3523, 800, 277, 6140, 1193, 2939, 423, 1755, 825, 255, 230, 3947, 945, 796, 63, 1103, 1149, 12863, 3641, 6349, 314, 1408, 8411, 1388, 13, 4621, 522, 1521, 2199, 6832, 2887, 1708, 29, 1409, 1976, 2493, 1013, 7315, 4756, 2178, 10704, 320, 589, 2447, 546, 824, 116, 380, 5463, 2265, 139, 1550, 2477, 347, 191, 1769, 305, 2836, 75, 450, 5706, 807, 1120, 833, 651, 2790, 594, 239, 341, 1336, 1533, 431, 1222, 728, 1739, 3254, 1775, 1162, 2497, 155, 894, 8312, 696, 10803, 1587, 9324, 300, 3932, 2784, 1691, 1720, 2035, 4344, 3316, 1283, 3086, 1195, 711, 2063, 3082, 2931, 220, 1774, 5062, 2581, 2047, 1692, 2344, 10206, 5304, 5166, 1072, 2819, 3733, 108, 1698, 964, 570, 326, 1077, 2651, 369, 455, 245, 627, 2785, 1081, 911, 161, 1240, 1235, 1086, 981, 792]

def c2kLast : Nat := 299

def c2KeysA : List Nat := c2k0 ++ (c2k1 ++ (c2k2 ++ (c2k3 ++ (c2k4 ++ c2k5))))

def c2Keys : List Nat := c2KeysA ++ [c2kLast]

/-- aVal is the one-byte payload used in the concrete runs. -/
def aVal : List Nat := [97]

theorem c2k0_map : c2k0.map (hash 0) = List.range' 0 256 1 := by decide

theorem c2k1_map : c2k1.map (hash 0) = List.range' 256 256 1 := by decide

theorem c2k2_map : c2k2.map (hash 0) = List.range' 512 256 1 := by decide

theorem c2k3_map : c2k3.map (hash 0) = List.range' 768 256 1 := by decide

theorem c2k4_map : c2k4.map (hash 0) = List.range' 1024 256 1 := by decide

theorem c2k5_map : c2k5.map (hash 0) = List.range' 1280 256 1 := by decide

theorem c2kLast_map : [c2kLast].map (hash 0) = List.range' 1536 1 1 := by decide

theorem c2k0_len : c2k0.length = 256 := rfl

theorem c2k1_len : c2k1.length = 256 := rfl

theorem c2k2_len : c2k2.length = 256 := rfl

theorem c2k3_len : c2k3.length = 256 := rfl

theorem c2k4_len : c2k4.length = 256 := rfl

theorem c2k5_len : c2k5.length = 256 := rfl

theorem cmergeA0 : List.range' 1024 256 1 ++ List.range' 1280 256 1 = List.range' 1024 512 1 := by
  have h := List.range'_append_1 1024 256 256
  norm_num at h
  exact h

theorem cmergeA1 : List.range' 768 256 1 ++ List.range' 1024 512 1 = List.range' 768 768 1 := by
  have h := List.range'_append_1 768 256 512
  norm_num at h
  exact h

theorem cmergeA2 : List.range' 512 256 1 ++ List.range' 768 768 1 = List.range' 512 1024 1 := by
  have h := List.range'_append_1 512 256 768
  norm_num at h
  exact h

theorem cmergeA3 : List.range' 256 256 1 ++ List.range' 512 1024 1 = List.range' 256 1280 1 := by
  have h := List.range'_append_1 256 256 1024
  norm_num at h
  exact h

theorem cmergeA4 : List.range' 0 256 1 ++ List.range' 256 1280 1 = List.range' 0 1536 1 := by
  have h := List.range'_append_1 0 256 1280
  norm_num at h
  exact h

theorem c2KeysA_map : c2KeysA.map (hash 0) = List.range' 0 1536 1 := by
  unfold c2KeysA
  rw [List.map_append, c2k0_map, List.map_append, c2k1_map, List.map_append,
    c2k2_map, List.map_append, c2k3_map, List.map_append, c2k4_map, c2k5_map]
  rw [cmergeA0, cmergeA1, cmergeA2, cmergeA3, cmergeA4]

theorem cmergeB : List.range' 0 1536 1 ++ List.range' 1536 1 1 = List.range' 0 1537 1 := by
  have h := List.range'_append_1 0 1536 1
  norm_num at h
  exact h

theorem c2Keys_map : c2Keys.map (hash 0) = List.range' 0 1537 1 := by
  unfold c2Keys
  rw [List.map_append, c2KeysA_map, c2kLast_map, cmergeB]

theorem c2KeysA_len : c2KeysA.length = 1536 := by
  unfold c2KeysA
  simp [List.length_append, c2k0_len, c2k1_len, c2k2_len, c2k3_len, c2k4_len, c2k5_len]

theorem c2Keys_len : c2Keys.length = 1537 := by
  unfold c2Keys
  rw [List.length_append, c2KeysA_len]
  rfl


theorem takeWhile_length_lt_of_mem_zero :
    ∀ {v : List Nat}, 0 ∈ v → (v.takeWhile (fun b => b != 0)).length < v.length := by
  intro v hv
  induction v with
  | nil => cases hv
  | cons a t ih =>
    by_cases ha : a = 0
    · subst ha
      simp [List.takeWhile_cons]
    · have hpa : (a != 0) = true := by simpa using ha
      rw [List.takeWhile_cons, hpa]
      simp only [if_true, List.length_cons]
      have ht : 0 ∈ t := by
        rcases List.mem_cons.mp hv with h | h
        · exact absurd h.symm ha
        · exact h
      have := ih ht
      omega

/-! ## Concrete executions driven by the key material -/

theorem init0_occ : ∀ p, ((initState 0).table p).state = EntryState.occupied ↔ p < 0 := by
  intro p
  constructor
  · intro h
    simp [initState] at h
  · intro h
    exact absurd h (Nat.not_lt_zero p)

theorem init0_nodel : ∀ p, ((initState 0).table p).state ≠ EntryState.deleted := by
  intro p h
  simp [initState] at h

/-- csA is the table obtained by adding the 1536 keys of c2KeysA, with value
aVal, to a freshly initialized table with seed 0. -/
def csA : TableState := addSeq aVal (initState 0) c2KeysA

theorem csA_def : csA = addSeq aVal (initState 0) c2KeysA := rfl

/-- csB adds one further key (primary position 1536) on top of csA's keys. -/
def csB : TableState := addSeq aVal (initState 0) c2Keys

theorem csB_def : csB = addSeq aVal (initState 0) c2Keys := rfl

theorem c2KeysA_get0 : ∀ (h : 0 < c2KeysA.length), c2KeysA.get ⟨0, h⟩ = 0 :=
  fun _ => rfl

theorem c2Keys_get0 : ∀ (h : 0 < c2Keys.length), c2Keys.get ⟨0, h⟩ = 0 :=
  fun _ => rfl

theorem addA_facts :
    addSeqAllOk aVal (initState 0) c2KeysA = true ∧
    (addSeq aVal (initState 0) c2KeysA).current_count = (1536 : Int) ∧
    (addSeq aVal (initState 0) c2KeysA).deleted_count = 0 ∧
    (addSeq aVal (initState 0) c2KeysA).hash_seed = 0 ∧
    (∀ p, ((addSeq aVal (initState 0) c2KeysA).table p).state = EntryState.occupied ↔
      p < 1536) ∧
    (∀ p, ((addSeq aVal (initState 0) c2KeysA).table p).state ≠ EntryState.deleted) ∧
    (addSeq aVal (initState 0) c2KeysA).table 0 =
      ⟨0, storeVal aVal, EntryState.occupied, 0⟩ := by
  have h := addSeq_block aVal (by decide) c2KeysA (initState 0) 0 init0_occ init0_nodel
    rfl rfl
    (by show c2KeysA.map (hash 0) = List.range' 0 c2KeysA.length 1
        rw [c2KeysA_len]
        exact c2KeysA_map)
    (by rw [c2KeysA_len]; try omega)
  obtain ⟨h1, h2, h3, h4, h5, h6, _, h8⟩ := h
  have hlen0 : 0 + c2KeysA.length = 1536 := by rw [c2KeysA_len]
  have hj : 0 < c2KeysA.length := by rw [c2KeysA_len]; omega
  have h00 := h8 0 hj
  rw [c2KeysA_get0 hj, Nat.add_zero] at h00
  refine ⟨h1, ?_, h3, h4, ?_, h6, h00⟩
  · rw [h2, hlen0]
    try norm_num
  · rw [← hlen0]
    exact h5

theorem addB_facts :
    addSeqAllOk aVal (initState 0) c2Keys = true ∧
    (addSeq aVal (initState 0) c2Keys).current_count = (1537 : Int) ∧
    (addSeq aVal (initState 0) c2Keys).deleted_count = 0 ∧
    (addSeq aVal (initState 0) c2Keys).hash_seed = 0 ∧
    (∀ p, ((addSeq aVal (initState 0) c2Keys).table p).state = EntryState.occupied ↔
      p < 1537) ∧
    (∀ p, ((addSeq aVal (initState 0) c2Keys).table p).state ≠ EntryState.deleted) ∧
    (addSeq aVal (initState 0) c2Keys).table 0 =
      ⟨0, storeVal aVal, EntryState.occupied, 0⟩ := by
  have h := addSeq_block aVal (by decide) c2Keys (initState 0) 0 init0_occ init0_nodel
    rfl rfl
    (by show c2Keys.map (hash 0) = List.range' 0 c2Keys.length 1
        rw [c2Keys_len]
        exact c2Keys_map)
    (by rw [c2Keys_len]; try omega)
  obtain ⟨h1, h2, h3, h4, h5, h6, _, h8⟩ := h
  have hlen0 : 0 + c2Keys.length = 1537 := by rw [c2Keys_len]
  have hj : 0 < c2Keys.length := by rw [c2Keys_len]; omega
  have h00 := h8 0 hj
  rw [c2Keys_get0 hj, Nat.add_zero] at h00
  refine ⟨h1, ?_, h3, h4, ?_, h6, h00⟩
  · rw [h2, hlen0]
    try norm_num
  · rw [← hlen0]
    exact h5

theorem csA_count : csA.current_count = (1536 : Int) := by
  rw [csA_def]
  exact addA_facts.2.1

theorem csA_del : csA.deleted_count = 0 := by
  rw [csA_def]
  exact addA_facts.2.2.1

theorem csA_slot0 : csA.table 0 = ⟨0, storeVal aVal, EntryState.occupied, 0⟩ := by
  rw [csA_def]
  exact addA_facts.2.2.2.2.2.2

theorem csB_allOk : addSeqAllOk aVal (initState 0) c2Keys = true := addB_facts.1

theorem csB_count : csB.current_count = (1537 : Int) := by
  rw [csB_def]
  exact addB_facts.2.1

theorem csB_del : csB.deleted_count = 0 := by
  rw [csB_def]
  exact addB_facts.2.2.1

theorem csB_seed : csB.hash_seed = 0 := by
  rw [csB_def]
  exact addB_facts.2.2.2.1

theorem csB_slot0 : csB.table 0 = ⟨0, storeVal aVal, EntryState.occupied, 0⟩ := by
  rw [csB_def]
  exact addB_facts.2.2.2.2.2.2

theorem runOps_append (s : TableState) (xs ys : List Op) :
    runOps s (xs ++ ys) = runOps (runOps s xs) ys := by
  simp [runOps]

theorem csA_reachable : Reachable 0 csA := by
  rw [csA_def]
  exact ⟨c2KeysA.map (fun k => Op.add k aVal), (addSeq_runOps aVal c2KeysA (initState 0)).symm⟩

theorem csB_reachable : Reachable 0 csB := by
  rw [csB_def]
  exact ⟨c2Keys.map (fun k => Op.add k aVal), (addSeq_runOps aVal c2Keys (initState 0)).symm⟩

/-- s1fix is the one-entry table: key 0 (primary position 0) with value aVal. -/
def s1fix : TableState := addSeq aVal (initState 0) [0]

theorem s1fix_def : s1fix = addSeq aVal (initState 0) [0] := rfl

theorem add1_facts :
    (addSeq aVal (initState 0) [0]).current_count = (1 : Int) ∧
    (addSeq aVal (initState 0) [0]).deleted_count = 0 ∧
    (addSeq aVal (initState 0) [0]).hash_seed = 0 ∧
    (addSeq aVal (initState 0) [0]).table 0 =
      ⟨0, storeVal aVal, EntryState.occupied, 0⟩ := by
  have h := addSeq_block aVal (by decide) [0] (initState 0) 0 init0_occ init0_nodel
    rfl rfl (by decide) (by decide)
  obtain ⟨_, h2, h3, h4, _, _, _, h8⟩ := h
  refine ⟨?_, h3, h4, h8 0 (by decide)⟩
  rw [h2]
  try decide

theorem s1fix_count : s1fix.current_count = (1 : Int) := by
  rw [s1fix_def]
  exact add1_facts.1

theorem s1fix_del : s1fix.deleted_count = 0 := by
  rw [s1fix_def]
  exact add1_facts.2.1

theorem s1fix_slot0 : s1fix.table 0 = ⟨0, storeVal aVal, EntryState.occupied, 0⟩ := by
  rw [s1fix_def]
  exact add1_facts.2.2.2

theorem s1fix_reachable : Reachable 0 s1fix :=
  ⟨[Op.add 0 aVal], rfl⟩

theorem hash00 : hash 0 0 = 0 := by decide

theorem csB_find0 : findEntry csB 0 (hash csB.hash_seed 0) = some 0 := by
  have hocc : (csB.table (hash csB.hash_seed 0)).state = EntryState.occupied := by
    rw [csB_seed, hash00, csB_slot0]
  have hkey : (csB.table (hash csB.hash_seed 0)).key = 0 := by
    rw [csB_seed, hash00, csB_slot0]
  have h := findEntry_first_match hocc hkey
  rw [csB_seed, hash00] at h
  rw [csB_seed, hash00]
  exact h

/-- sW removes key 0 from csB: 1536 live entries plus one tombstone, so the
rehash trigger live + tombstones > 1536 fires on the next mutation. -/
def sW : TableState :=
  { setSlot csB 0 { csB.table 0 with state := EntryState.deleted } with
      current_count := csB.current_count - 1,
      deleted_count := csB.deleted_count + 1 }

theorem sW_eq : removeRsc csB 0 = (OK, sW) :=
  removeRsc_some csB_find0

theorem sW_count : sW.current_count = (1536 : Int) := by
  show csB.current_count - 1 = (1536 : Int)
  rw [csB_count]
  norm_num

theorem sW_del : sW.deleted_count = (1 : Int) := by
  show csB.deleted_count + 1 = (1 : Int)
  rw [csB_del]
  norm_num

theorem sW_needRehash : needRehash sW = true := by
  unfold needRehash
  rw [sW_count, sW_del]
  decide

theorem runOps_remove_one (s : TableState) (k : Nat) :
    runOps s [Op.remove k] = (removeRsc s k).2 := rfl

theorem sW_reachable : Reachable 0 sW := by
  obtain ⟨ops, hops⟩ := csB_reachable
  refine ⟨ops ++ [Op.remove 0], ?_⟩
  rw [runOps_append, hops, runOps_remove_one, sW_eq]

/-! ## The claims -/

/-- C1 (amended): the slot examined at probe step `s` by findEntry and
findEmptySlot is `(primary + (s(s+1)/2) · secondary) mod 2048`, not
`(primary + s · secondary) mod 2048`: getNextProbe receives the running step
counter, so the offsets accumulate to triangular numbers of the secondary
hash rather than linear multiples. -/
theorem c1_probe_step_amended (seed key s : Nat) :
    probePos seed key s =
      (hash seed key + (s * (s + 1) / 2) * hash2 seed key) % 2048 :=
  probePos_formula seed key s

/-- C1 counterexample: at seed 0 and key 0 (primary 0, secondary 51) the slot
examined at step 2 is 153 = 0 + 3·51, while the claimed arithmetic progression
gives (0 + 2·51) mod 2048 = 102. -/
theorem c1_probe_step_counterexample :
    probePos 0 0 2 ≠ (hash 0 0 + 2 * hash2 0 0) % 2048 := by decide

/-- C2 (code bug): the capacity invariant fails in the code.  c2Keys lists
1537 distinct keys; adding all of them with a valid value to a fresh table
makes every addRsc call return OK — no NO_SPACE is ever reported — and the
resulting reachable state has current_count = 1537 > RWLOCK_MAX_ENTRIES =
1536.  The guard needRehash only fires when live + tombstones exceed 1536 and
addRsc has no insertion cap of its own, contradicting both the documented
invariant and P5. -/
theorem c2_capacity_bound_violated :
    c2Keys.Nodup ∧ c2Keys.length = 1537 ∧ aVal.length < MAX_VALUE_LEN ∧
    addSeqAllOk aVal (initState 0) c2Keys = true ∧
    Reachable 0 csB ∧
    csB.current_count = (1537 : Int) ∧
    RWLOCK_MAX_ENTRIES < csB.current_count := by
  refine ⟨?_, c2Keys_len, by decide, csB_allOk, csB_reachable, csB_count, ?_⟩
  · have hnd : (c2Keys.map (hash 0)).Nodup := by
      rw [c2Keys_map,
        show List.range' 0 1537 1 = List.range 1537 from (List.range_eq_range' 1537).symm]
      exact List.nodup_range 1537
    exact hnd.of_map
  · rw [csB_count]
    decide

/-- C3 (amended): on a well-formed table holding key k, with a value below the
length cap, addRsc returns DUPLICATE_KEY and leaves the state unchanged
provided additionally that the compaction trigger is off and the live count is
below RWLOCK_MAX_ENTRIES; at or above that bound the duplicate is misreported
as NO_SPACE_ERR by the heuristic in addRsc. -/
theorem c3_duplicate_add_amended (s : TableState) (k : Nat) (v : List Nat)
    (hInv : Inv s) (hlen : v.length < MAX_VALUE_LEN)
    (hocc : ∃ j < 2048, (s.table j).state = EntryState.occupied ∧ (s.table j).key = k)
    (hnoreh : needRehash s = false)
    (hbelow : s.current_count < RWLOCK_MAX_ENTRIES) :
    addRsc s k v = (DUPLICATE_KEY, s) := by
  rw [addRsc_dup s k v hInv hlen hocc hnoreh, if_neg (not_le.mpr hbelow)]

theorem c3_duplicate_add_amended_witness :
    aVal.length < MAX_VALUE_LEN ∧ needRehash s1fix = false ∧
    addRsc s1fix 0 aVal = (DUPLICATE_KEY, s1fix) := by
  have hnr : needRehash s1fix = false := by
    unfold needRehash
    rw [s1fix_count, s1fix_del]
    decide
  refine ⟨by decide, hnr, ?_⟩
  exact c3_duplicate_add_amended s1fix 0 aVal
    (Reachable_Inv s1fix_reachable)
    (by decide)
    ⟨0, by decide, by rw [s1fix_slot0], by rw [s1fix_slot0]⟩
    hnr
    (by rw [s1fix_count]; decide)

/-- C3 counterexample: csA is reachable and holds key 0 with a valid value,
yet adding key 0 again returns NO_SPACE_ERR rather than DUPLICATE_KEY, because
current_count = 1536 meets the RWLOCK_MAX_ENTRIES threshold of the heuristic
in addRsc. -/
theorem c3_duplicate_add_counterexample :
    Reachable 0 csA ∧
    (csA.table 0).state = EntryState.occupied ∧ (csA.table 0).key = 0 ∧
    aVal.length < MAX_VALUE_LEN ∧
    (addRsc csA 0 aVal).1 = NO_SPACE_ERR ∧
    (addRsc csA 0 aVal).1 ≠ DUPLICATE_KEY := by
  have hslot := csA_slot0
  have hnr : needRehash csA = false := by
    unfold needRehash
    rw [csA_count, csA_del]
    decide
  have hdup := addRsc_dup csA 0 aVal (Reachable_Inv csA_reachable) (by decide)
    ⟨0, by decide, by rw [hslot], by rw [hslot]⟩ hnr
  have hif : (if RWLOCK_MAX_ENTRIES ≤ csA.current_count
      then NO_SPACE_ERR else DUPLICATE_KEY) = NO_SPACE_ERR := by
    rw [if_pos (by rw [csA_count]; decide)]
  refine ⟨csA_reachable, by rw [hslot], by rw [hslot], by decide, ?_, ?_⟩
  · rw [hdup, hif]
  · rw [hdup, hif]
    decide

/-- C4: for every seed and key the probe positions at steps 0 … 2047 are
pairwise distinct and cover all 2048 slots: the secondary hash is odd and the
capacity is a power of two, so consecutive triangular multiples of it cycle
through every residue. -/
theorem c4_probe_full_cycle (seed key : Nat) :
    ((List.range 2048).map (probePos seed key)).Nodup ∧
    ∀ p < 2048, p ∈ (List.range 2048).map (probePos seed key) := by
  constructor
  · refine List.Nodup.map_on ?_ (List.nodup_range 2048)
    intro s hs t ht heq
    exact probePos_injective seed key (List.mem_range.mp hs) (List.mem_range.mp ht) heq
  · intro p hp
    obtain ⟨s, hs, hps⟩ := probePos_surjective seed key hp
    exact List.mem_map.mpr ⟨s, List.mem_range.mpr hs, hps⟩

theorem c4_probe_full_cycle_witness :
    (0 : Nat) < 2048 ∧ 0 ∈ (List.range 2048).map (probePos 0 0) :=
  ⟨by decide, (c4_probe_full_cycle 0 0).2 0 (by decide)⟩

/-- C5: whenever the pre-state is well formed (with live count within the
documented bound) and rehashIfNeeded actually rebuilds (needRehash holds), the
rebuild preserves the logical key-value map, clears all tombstones, makes the
live counter equal the number of occupied slots, and keeps the hash seed. -/
theorem c5_rehash_preserves_map (s : TableState) (hInv : Inv s)
    (_hlive : s.current_count ≤ RWLOCK_MAX_ENTRIES)
    (hneed : needRehash s = true) :
    (∀ a b, ((a, b) ∈ occPairs (rehashIfNeeded s).2 ↔ (a, b) ∈ occPairs s)) ∧
    (rehashIfNeeded s).2.deleted_count = 0 ∧
    (rehashIfNeeded s).2.current_count = (countOcc (rehashIfNeeded s).2 : Int) ∧
    (rehashIfNeeded s).2.hash_seed = s.hash_seed := by
  obtain ⟨_, _, hseed, hpairs, _, hreb⟩ := rehashIfNeeded_spec s hInv
  exact ⟨hpairs, (hreb hneed).1, (hreb hneed).2, hseed⟩

theorem c5_rehash_preserves_map_witness :
    needRehash sW = true ∧ sW.current_count ≤ RWLOCK_MAX_ENTRIES ∧
    (rehashIfNeeded sW).2.deleted_count = 0 := by
  have hInv := Reachable_Inv sW_reachable
  have hle : sW.current_count ≤ RWLOCK_MAX_ENTRIES := by
    rw [sW_count]
    decide
  exact ⟨sW_needRehash, hle,
    (c5_rehash_preserves_map sW hInv hle sW_needRehash).2.1⟩

/-- C6: after a successful add of value v (below the length cap) for key k in
a reachable state, any later get of k returns exactly the bytes of v up to the
first NUL, across any further operations that neither overwrite nor delete k —
including operations on other keys that trigger a rehash. -/
theorem c6_add_get_roundtrip (seed : Nat) (s : TableState) (hreach : Reachable seed s)
    (k : Nat) (v : List Nat) (hlen : v.length < MAX_VALUE_LEN)
    (hok : (addRsc s k v).1 = OK)
    (ops : List Op) (hav : ∀ op ∈ ops, opAvoids k op) :
    getRsc (runOps (addRsc s k v).2 ops) k = v.takeWhile (fun b => b != 0) := by
  have hInv := Reachable_Inv hreach
  have hInv2 : Inv (addRsc s k v).2 := (addRsc_spec s k v hInv).1
  have hpair : (k, storeVal v) ∈ occPairs (addRsc s k v).2 := addRsc_ok_pair hInv hok
  have hmem : (k, storeVal v) ∈ occPairs (runOps (addRsc s k v).2 ops) :=
    (runOps_avoids_pairs ops (addRsc s k v).2 hInv2 hav (storeVal v)).mpr hpair
  have hget := getRsc_mem (Inv_runOps (addRsc s k v).2 ops hInv2) hmem
  rw [hget, storeVal_of_short hlen]

theorem c6_add_get_roundtrip_witness :
    (addRsc (initState 0) 5 [97, 98]).1 = OK ∧
    getRsc (runOps (addRsc (initState 0) 5 [97, 98]).2 [Op.add 7 [99]]) 5 =
      List.takeWhile (fun b => b != 0) [97, 98] := by
  have hok : (addRsc (initState 0) 5 [97, 98]).1 = OK := by decide
  refine ⟨hok, c6_add_get_roundtrip 0 (initState 0) ⟨[], rfl⟩ 5 [97, 98] (by decide) hok
    [Op.add 7 [99]] ?_⟩
  intro op hop
  rw [List.mem_singleton] at hop
  subst hop
  show (7 : Nat) ≠ 5
  decide

/-- C7: a value at or above the length cap makes addRsc, updateRsc and
upsertRsc return NO_SPACE_ERR with the state untouched, and batchUpdateGo
skips such an entry without writing and without counting it as a success. -/
theorem c7_value_length_gate (s : TableState) (k : Nat) (v : List Nat)
    (hlen : MAX_VALUE_LEN ≤ v.length) :
    addRsc s k v = (NO_SPACE_ERR, s) ∧
    updateRsc s k v = (NO_SPACE_ERR, s) ∧
    upsertRsc s k v = (NO_SPACE_ERR, s) ∧
    ∀ rest c, batchUpdateGo ((k, v) :: rest) c s = batchUpdateGo rest c s := by
  refine ⟨addRsc_long hlen, updateRsc_long hlen, upsertRsc_long hlen, ?_⟩
  intro rest c
  rw [batchUpdateGo, if_pos hlen]

theorem c7_value_length_gate_witness :
    MAX_VALUE_LEN ≤ (List.replicate 256 97).length ∧
    addRsc (initState 0) 1 (List.replicate 256 97) = (NO_SPACE_ERR, initState 0) := by
  have hlen : MAX_VALUE_LEN ≤ (List.replicate 256 97).length := by decide
  exact ⟨hlen, (c7_value_length_gate (initState 0) 1 (List.replicate 256 97) hlen).1⟩

/-- C8: in a reachable state holding key k at slot j, the first remove returns
OK, tombstones exactly that slot, decrements the live counter and increments
the tombstone counter; afterwards contains is false, get returns the empty
string, and a second remove returns NOT_FOUND without further change. -/
theorem c8_remove_idempotent (seed : Nat) (s : TableState) (hreach : Reachable seed s)
    (k j : Nat) (hj : j < 2048)
    (hocc : (s.table j).state = EntryState.occupied) (hkey : (s.table j).key = k) :
    (removeRsc s k).1 = OK ∧
    ((removeRsc s k).2.table j).state = EntryState.deleted ∧
    (removeRsc s k).2.current_count = s.current_count - 1 ∧
    (removeRsc s k).2.deleted_count = s.deleted_count + 1 ∧
    (∀ i, i ≠ j → (removeRsc s k).2.table i = s.table i) ∧
    isContain (removeRsc s k).2 k = false ∧
    getRsc (removeRsc s k).2 k = [] ∧
    removeRsc (removeRsc s k).2 k = (NOT_FOUND, (removeRsc s k).2) := by
  have hInv := Reachable_Inv hreach
  have hfind := findEntry_finds hInv hj hocc hkey
  have hrem := removeRsc_some hfind
  have htab : ∀ i, (removeRsc s k).2.table i =
      (setSlot s j { s.table j with state := EntryState.deleted }).table i := by
    intro i
    rw [hrem]
  have habs : ∀ i < 2048,
      ¬(((removeRsc s k).2.table i).state = EntryState.occupied ∧
        ((removeRsc s k).2.table i).key = k) := by
    rintro i hi ⟨hocc2, hkey2⟩
    by_cases hij : i = j
    · rw [hij, htab j, setSlot_table_same] at hocc2
      cases hocc2
    · rw [htab i, setSlot_table_noteq s j _ hij] at hocc2 hkey2
      exact hij (hInv.key_uniq i hi j hj hocc2 hocc (hkey2.trans hkey.symm))
  refine ⟨by rw [hrem], ?_, by rw [hrem], by rw [hrem], ?_, ?_, ?_, ?_⟩
  · rw [htab j, setSlot_table_same]
  · intro i hi
    rw [htab i, setSlot_table_noteq s j _ hi]
  · exact isContain_false habs
  · exact getRsc_absent habs
  · exact removeRsc_notfound (findEntry_eq_none habs)

theorem c8_remove_idempotent_witness :
    (s1fix.table 0).state = EntryState.occupied ∧
    (removeRsc s1fix 0).1 = OK ∧
    removeRsc (removeRsc s1fix 0).2 0 = (NOT_FOUND, (removeRsc s1fix 0).2) := by
  have hocc : (s1fix.table 0).state = EntryState.occupied := by rw [s1fix_slot0]
  have hkey : (s1fix.table 0).key = 0 := by rw [s1fix_slot0]
  have h := c8_remove_idempotent 0 s1fix s1fix_reachable 0 0 (by decide) hocc hkey
  exact ⟨hocc, h.1, h.2.2.2.2.2.2.2⟩

/-- C9: the cleanup entry point never touches the table, returns 0 exactly
when the unlink succeeds or fails with ENOENT, and returns -1 exactly when the
unlink fails with any other errno. -/
theorem c9_cleanup_spec (r : UnlinkOutcome) (s : TableState) :
    (cleanupWithState r s).2 = s ∧
    ((cleanupWithState r s).1 = 0 ↔
      r = UnlinkOutcome.success ∨ r = UnlinkOutcome.fail ENOENT) ∧
    ((cleanupWithState r s).1 = -1 ↔
      ∃ e, r = UnlinkOutcome.fail e ∧ e ≠ ENOENT) := by
  refine ⟨rfl, ?_, ?_⟩
  · cases r with
    | success => simp [cleanupWithState, cleanup, OK]
    | fail e =>
      by_cases he : e = ENOENT
      · subst he
        simp [cleanupWithState, cleanup, OK]
      · simp [cleanupWithState, cleanup, he, OK]
  · cases r with
    | success =>
      refine iff_of_false (by simp [cleanupWithState, cleanup, OK]) ?_
      rintro ⟨e, heq, _⟩
      cases heq
    | fail e =>
      by_cases he : e = ENOENT
      · subst he
        refine iff_of_false (by simp [cleanupWithState, cleanup, OK]) ?_
        rintro ⟨e, heq, hne⟩
        cases heq
        exact hne rfl
      · refine iff_of_true ?_ ⟨e, rfl, he⟩
        show (if e ≠ ENOENT then (-1 : Int) else OK) = -1
        rw [if_pos he]

/-- C10: a value below the length cap that contains an interior NUL byte is
silently truncated by each of the writing operations: add returns OK but get
then yields exactly the bytes before the first NUL — a strictly shorter list
than v — always fitting strictly within MAX_VALUE_LEN bytes; and on an
occupied key, update and upsert likewise return OK yet store only that proper
prefix of v. -/
theorem c10_interior_nul (seed : Nat) (s : TableState) (hreach : Reachable seed s)
    (k : Nat) (v : List Nat) (hlen : v.length < MAX_VALUE_LEN) (hnul : 0 ∈ v) :
    ((addRsc s k v).1 = OK →
      getRsc (addRsc s k v).2 k = v.takeWhile (fun b => b != 0) ∧
      (getRsc (addRsc s k v).2 k).length < v.length ∧
      getRsc (addRsc s k v).2 k ≠ v ∧
      (getRsc (addRsc s k v).2 k).length < MAX_VALUE_LEN) ∧
    (∀ j < 2048, (s.table j).state = EntryState.occupied → (s.table j).key = k →
      (updateRsc s k v).1 = OK ∧
      getRsc (updateRsc s k v).2 k = v.takeWhile (fun b => b != 0) ∧
      getRsc (updateRsc s k v).2 k ≠ v ∧
      (upsertRsc s k v).1 = OK ∧
      getRsc (upsertRsc s k v).2 k = v.takeWhile (fun b => b != 0) ∧
      getRsc (upsertRsc s k v).2 k ≠ v) := by
  have hInv := Reachable_Inv hreach
  have hst : storeVal v = v.takeWhile (fun b => b != 0) := storeVal_of_short hlen
  have hlt : (v.takeWhile (fun b => b != 0)).length < v.length :=
    takeWhile_length_lt_of_mem_zero hnul
  have hne : v.takeWhile (fun b => b != 0) ≠ v := by
    intro hcon
    rw [hcon] at hlt
    exact Nat.lt_irrefl _ hlt
  constructor
  · intro hok
    have hpair := addRsc_ok_pair hInv hok
    have hget := getRsc_mem (addRsc_spec s k v hInv).1 hpair
    have heq : getRsc (addRsc s k v).2 k = v.takeWhile (fun b => b != 0) := by
      rw [hget, hst]
    refine ⟨heq, by rw [heq]; exact hlt, by rw [heq]; exact hne, ?_⟩
    rw [heq]
    omega
  · intro j hj hocc hkey
    have hlen' : ¬(MAX_VALUE_LEN ≤ v.length) := by omega
    have hfind := findEntry_finds hInv hj hocc hkey
    have hupd := updateRsc_some hlen' hfind
    have hups := upsertRsc_found hlen' hfind
    have hInv' : Inv (setSlot s j { s.table j with value := storeVal v }) :=
      write_value_inv hInv hj hocc
    have hmem : (k, storeVal v) ∈
        occPairs (setSlot s j { s.table j with value := storeVal v }) := by
      refine mem_occPairs.mpr ⟨j, hj, ?_, ?_, ?_⟩
      · rw [setSlot_table_same]
        exact hocc
      · rw [setSlot_table_same]
        exact hkey
      · rw [setSlot_table_same]
        exact readVal_storeVal v
    have hget := getRsc_mem hInv' hmem
    refine ⟨by rw [hupd], ?_, ?_, by rw [hups], ?_, ?_⟩
    · rw [hupd]
      show getRsc (setSlot s j { s.table j with value := storeVal v }) k = _
      rw [hget]
      exact hst
    · rw [hupd]
      show getRsc (setSlot s j { s.table j with value := storeVal v }) k ≠ v
      rw [hget, hst]
      exact hne
    · rw [hups]
      show getRsc (setSlot s j { s.table j with value := storeVal v }) k = _
      rw [hget]
      exact hst
    · rw [hups]
      show getRsc (setSlot s j { s.table j with value := storeVal v }) k ≠ v
      rw [hget, hst]
      exact hne

theorem c10_interior_nul_witness :
    0 ∈ [97, 0, 98] ∧
    (addRsc (initState 0) 1 [97, 0, 98]).1 = OK ∧
    getRsc (addRsc (initState 0) 1 [97, 0, 98]).2 1 ≠ [97, 0, 98] ∧
    (updateRsc s1fix 0 [97, 0, 98]).1 = OK ∧
    getRsc (updateRsc s1fix 0 [97, 0, 98]).2 0 ≠ [97, 0, 98] ∧
    (upsertRsc s1fix 0 [97, 0, 98]).1 = OK ∧
    getRsc (upsertRsc s1fix 0 [97, 0, 98]).2 0 ≠ [97, 0, 98] := by
  have hok : (addRsc (initState 0) 1 [97, 0, 98]).1 = OK := by decide
  have hadd := (c10_interior_nul 0 (initState 0) ⟨[], rfl⟩ 1 [97, 0, 98]
    (by decide) (by decide)).1 hok
  have hupd := (c10_interior_nul 0 s1fix s1fix_reachable 0 [97, 0, 98]
    (by decide) (by decide)).2 0 (by decide)
    (by rw [s1fix_slot0]) (by rw [s1fix_slot0])
  exact ⟨by decide, hok, hadd.2.2.1, hupd.1, hupd.2.2.1, hupd.2.2.2.1,
    hupd.2.2.2.2.2⟩
end SharedMem
